import Mathlib

/-!
# Oceanify — shallow embedding and verification

A shallow embedding of the core of the oceanify compiler pipeline
(`src/lib/compileAll.js`, `src/lib/Cache.js`) together with proofs about
the dependency-route resolver (`findModule`), the recursive bundler
(`_bundle` / `append` / `satisfy` / `appendModule`), the content-addressed
cache (`Cache.read` / `Cache.write` / `Cache.remove`) and the background
precompile scheduler (`Cache.precompile` plus the module-level promise
queue).

Conventions:
* JavaScript objects used as string-keyed maps become association lists.
* Fallible / throwing code returns `Except`.
* The generator-based control flow is sequential, so it is modelled by
  explicit state passing; the shared mutable closure state of `_bundle`
  (`ids`, `route`, `toplevel`, `requiredMap`) becomes a `BState` record
  threaded through the recursion.
-/

set_option maxHeartbeats 1000000

namespace Oceanify

/-! ## Data model: the dependencies tree -/

/-- One node of the dependencies tree, as produced by `parseMap`:
`{ version, main, dir, dependencies }`.  The nested `dependencies` object
becomes an association list. -/
inductive DepNode : Type where
  | mk (version main dir : String) (deps : List (String × DepNode))

/-- `DependenciesMap`: mapping from package name to resolved node. -/
abbrev DependenciesMap := List (String × DepNode)

/-- `RequiredMap`: the sink object that `findModule` fills in. -/
abbrev ReqMap := List (String × DepNode)

def DepNode.version : DepNode → String
  | .mk v _ _ _ => v

def DepNode.main : DepNode → String
  | .mk _ m _ _ => m

def DepNode.dir : DepNode → String
  | .mk _ _ d _ => d

def DepNode.deps : DepNode → List (String × DepNode)
  | .mk _ _ _ ds => ds

/-- JavaScript property lookup `obj[key]` on a string-keyed object. -/
def dmLookup (d : DependenciesMap) (k : String) : Option DepNode :=
  match d with
  | [] => none
  | (k', n) :: rest => if k' = k then some n else dmLookup rest k

/-- Store `req[k] = v` on the requiredMap object. -/
def reqSet (req : ReqMap) (k : String) (v : DepNode) : ReqMap :=
  (k, v) :: req.filter (fun e => e.1 ≠ k)

/-- `JSON.parse(JSON.stringify(node))` — a structural round trip.  On the
pure tree model it is the identity: reference aliasing is not observable
here, only structure is. -/
def deepCopy (n : DepNode) : DepNode := n

/-! ## findModule (src/lib/compileAll.js, lines 49–67) -/

/-- The ways `findModule` can throw: dereferencing `undefined` inside the
`reduce` walk (`TypeError`), or `JSON.parse(JSON.stringify(undefined))`
(`SyntaxError`, shown below to be unreachable from the loop). -/
inductive FindErr : Type where
  | typeError
  | jsonError
deriving DecidableEq, Repr

/-- The JavaScript value held by the accumulator of
`route.reduce(function(obj, p) { return obj.dependencies[p] }, seed)`:
the seed object `{ dependencies: map }`, a tree node, or `undefined`. -/
inductive JsVal : Type where
  | seed (d : DependenciesMap)
  | node (n : DepNode)
  | undef

/-- `acc.dependencies`: `none` when the accumulator is `undefined` (so the
property access throws). -/
def JsVal.depsOf : JsVal → Option DependenciesMap
  | .seed d => some d
  | .node n => some n.deps
  | .undef => none

/-- One pass of `route.reduce(function(obj, p) { return obj.dependencies[p] }, acc)`,
written as structural recursion on the remaining route. -/
def jsReduceGo : JsVal → List String → Except FindErr JsVal
  | v, [] => .ok v
  | v, p :: rest =>
    match v.depsOf with
    | none => .error .typeError
    | some d =>
      jsReduceGo (match dmLookup d p with
        | some n => .node n
        | none => .undef) rest

/-- The full `route.reduce(..., { dependencies: dependenciesMap })` walk. -/
def jsReduce (d : DependenciesMap) (route : List String) : Except FindErr JsVal :=
  jsReduceGo (.seed d) route

/-- `route.splice(-2, 1)`: remove the second-to-last element (for a
one-element route, element 0; no-op shape-wise on the empty route). -/
def spliceSecondToLast (route : List String) : List String :=
  if route.length ≤ 1 then []
  else route.eraseIdx (route.length - 2)

theorem spliceSecondToLast_length_lt (route : List String) (h : route ≠ []) :
    (spliceSecondToLast route).length < route.length := by
  unfold spliceSecondToLast
  have hlen : 0 < route.length := List.length_pos.mpr h
  by_cases h1 : route.length ≤ 1
  · simp [h1]; omega
  · have hlt : route.length - 2 < route.length := by omega
    simp only [h1, if_false]
    rw [List.length_eraseIdx_of_lt hlt]
    omega

/-- The `while (!result && route.length)` loop of `findModule`
(src/lib/compileAll.js lines 49–67), with the `requiredMap` side effect
made explicit.  `hasReq` records whether a `requiredMap` object was passed
(JavaScript truthiness of the third argument).  On a truthy walk result it
stores `requiredMap[route[0]] = JSON.parse(JSON.stringify(dependenciesMap[route[0]]))`
for the *current* (possibly already truncated) route. -/
def findModule (route : List String) (d : DependenciesMap) (hasReq : Bool)
    (req : ReqMap) : Except FindErr (Option DepNode × ReqMap) :=
  match route with
  | [] => .ok (none, req)
  | r0 :: rest =>
    match jsReduce d (r0 :: rest) with
    | .error e => .error e
    | .ok (.node n) =>
      if hasReq then
        match dmLookup d r0 with
        | some topn => .ok (some n, reqSet req r0 (deepCopy topn))
        | none => .error .jsonError
      else .ok (some n, req)
    | .ok _ => findModule (spliceSecondToLast (r0 :: rest)) d hasReq req
termination_by route.length
decreasing_by
  exact spliceSecondToLast_length_lt _ (by simp)

/-! ## RouteFinder, as the specification words it (§4.2)

The spec-side reference model for the refinement claim about `findModule`:
"attempt to walk the full route as nested lookups … if unresolved, drop
the second-to-last route segment and retry; repeat while the route still
has segments to drop", returning the node found by the first successful
attempt. -/

/-- Spec-side nested-lookup walk: total, failing to `none` on any missing
segment (the spec has no notion of a crash). -/
def specWalk (d : DependenciesMap) : List String → Option DepNode
  | [] => none
  | [p] => dmLookup d p
  | p :: q :: rest =>
    match dmLookup d p with
    | none => none
    | some n => specWalk n.deps (q :: rest)

/-- The sequence of attempted routes: the route itself, then each
successive truncation, while segments remain. -/
def truncationAttempts (route : List String) : List (List String) :=
  if route.isEmpty then []
  else route :: truncationAttempts (spliceSecondToLast route)
termination_by route.length
decreasing_by
  rename_i hne
  exact spliceSecondToLast_length_lt _ (by simpa [List.isEmpty_iff] using hne)

/-- Modelled from the spec (§4.2 RouteFinder): the node found by the first
successful truncation attempt, `none` when no truncation succeeds. -/
def routeFinderSpec (d : DependenciesMap) (route : List String) : Option DepNode :=
  (truncationAttempts route).findSome? (specWalk d)

/-! ## Lemmas connecting the JavaScript walk to the spec-side walk -/

theorem truncationAttempts_nil : truncationAttempts [] = [] := by
  rw [truncationAttempts]; rfl

theorem truncationAttempts_cons (r0 : String) (rest : List String) :
    truncationAttempts (r0 :: rest) =
      (r0 :: rest) :: truncationAttempts (spliceSecondToLast (r0 :: rest)) := by
  rw [truncationAttempts]; rfl

theorem spliceSecondToLast_subset (route : List String) :
    ∀ x ∈ spliceSecondToLast route, x ∈ route := by
  intro x hx
  unfold spliceSecondToLast at hx
  by_cases h1 : route.length ≤ 1
  · simp [h1] at hx
  · simp only [h1, if_false] at hx
    exact (List.eraseIdx_sublist route _).subset hx

/-- A successful walk can only end on the seed when the route was empty. -/
theorem jsReduceGo_ok_seed {v : JsVal} {xs : List String} {s : DependenciesMap}
    (h : jsReduceGo v xs = .ok (.seed s)) : xs = [] ∧ v = .seed s := by
  induction xs generalizing v with
  | nil =>
    simp only [jsReduceGo, Except.ok.injEq] at h
    exact ⟨rfl, h⟩
  | cons p rest ih =>
    simp only [jsReduceGo] at h
    cases hv : v.depsOf with
    | none => rw [hv] at h; exact absurd h (by simp)
    | some d =>
      rw [hv] at h
      have := ih h
      cases hl : dmLookup d p <;> rw [hl] at this <;> exact absurd this.2 (by simp)

/-- On a non-empty route the JavaScript `reduce` walk agrees with the
spec-side nested-lookup walk: it yields a node exactly when the spec walk
finds that node, and yields `undefined` only when the spec walk finds
nothing. -/
theorem jsReduce_specWalk : ∀ (route : List String), route ≠ [] →
    ∀ (d : DependenciesMap),
    (∀ n, jsReduce d route = .ok (.node n) ↔ specWalk d route = some n) ∧
    (jsReduce d route = .ok .undef → specWalk d route = none) := by
  intro route
  induction route with
  | nil => intro h; exact absurd rfl h
  | cons p rest ih =>
    intro _ d
    cases rest with
    | nil =>
      cases hl : dmLookup d p with
      | none =>
        constructor
        · intro n; simp [jsReduce, jsReduceGo, JsVal.depsOf, hl, specWalk]
        · intro _; simp [specWalk, hl]
      | some m =>
        constructor
        · intro n; simp [jsReduce, jsReduceGo, JsVal.depsOf, hl, specWalk]
        · intro h; simp [jsReduce, jsReduceGo, JsVal.depsOf, hl] at h
    | cons q rest' =>
      cases hl : dmLookup d p with
      | none =>
        constructor
        · intro n; simp [jsReduce, jsReduceGo, JsVal.depsOf, hl, specWalk]
        · intro h; simp [jsReduce, jsReduceGo, JsVal.depsOf, hl] at h
      | some m =>
        have key : jsReduce d (p :: q :: rest') = jsReduce m.deps (q :: rest') := by
          simp [jsReduce, jsReduceGo, JsVal.depsOf, hl]
        have hsw : specWalk d (p :: q :: rest') = specWalk m.deps (q :: rest') := by
          simp [specWalk, hl]
        rw [key, hsw]
        exact ih (by simp) m.deps

theorem routeFinderSpec_cons_some {d : DependenciesMap} {r0 : String}
    {rest : List String} {n : DepNode} (h : specWalk d (r0 :: rest) = some n) :
    routeFinderSpec d (r0 :: rest) = some n := by
  rw [routeFinderSpec, truncationAttempts_cons, List.findSome?_cons, h]

theorem routeFinderSpec_cons_none {d : DependenciesMap} {r0 : String}
    {rest : List String} (h : specWalk d (r0 :: rest) = none) :
    routeFinderSpec d (r0 :: rest) =
      routeFinderSpec d (spliceSecondToLast (r0 :: rest)) := by
  rw [routeFinderSpec, truncationAttempts_cons, List.findSome?_cons, h, routeFinderSpec]

/-! ## C2: findModule refines the spec-side RouteFinder whenever it returns -/

/-- Whenever `findModule` returns at all (does not throw), the node it
returns is exactly the one found by the first successful truncation
attempt of the spec-side RouteFinder; and in the concrete two-segment
hoisting situation — the first segment resolves to a node lacking the
second, which is present at the top level — it returns the very node a
direct shallow lookup of the dependency's name returns.  (Without the
no-crash condition the behaviour is refuted: a walk attempt that fails at
a non-final segment throws instead of retrying.) -/
theorem findModule_resolves_first_successful_attempt :
    (∀ (route : List String) (d : DependenciesMap) (hasReq : Bool) (req : ReqMap)
        (r : Option DepNode) (req' : ReqMap),
      findModule route d hasReq req = .ok (r, req') → r = routeFinderSpec d route) ∧
    (∀ (d : DependenciesMap) (p q : String) (P Q : DepNode),
      dmLookup d p = some P → dmLookup P.deps q = none → dmLookup d q = some Q →
      findModule [p, q] d false [] = .ok (some Q, []) ∧ dmLookup d q = some Q) := by
  constructor
  · intro route d hasReq req
    induction route, d, hasReq, req using findModule.induct with
    | case1 d hasReq req =>
      intro r req' h
      simp only [findModule, Except.ok.injEq, Prod.mk.injEq] at h
      rw [routeFinderSpec, truncationAttempts_nil, List.findSome?_nil]
      exact h.1.symm
    | case2 d hasReq req r0 rest e hred =>
      intro r req' h
      unfold findModule at h
      rw [hred] at h
      exact absurd h (by simp)
    | case3 d req r0 rest n hred topn hlook =>
      intro r req' h
      unfold findModule at h
      rw [hred, hlook] at h
      simp only [if_true, Except.ok.injEq, Prod.mk.injEq] at h
      have hsw : specWalk d (r0 :: rest) = some n :=
        ((jsReduce_specWalk _ (by simp) d).1 n).mp hred
      rw [routeFinderSpec_cons_some hsw]
      exact h.1.symm
    | case4 d req r0 rest n hred hlook =>
      intro r req' h
      unfold findModule at h
      rw [hred, hlook] at h
      exact absurd h (by simp)
    | case5 d hasReq req r0 rest n hred hnr =>
      intro r req' h
      unfold findModule at h
      rw [hred] at h
      simp only [if_neg hnr, Except.ok.injEq, Prod.mk.injEq] at h
      have hsw : specWalk d (r0 :: rest) = some n :=
        ((jsReduce_specWalk _ (by simp) d).1 n).mp hred
      rw [routeFinderSpec_cons_some hsw]
      exact h.1.symm
    | case6 d hasReq req r0 rest a hnn hred ih =>
      intro r req' h
      unfold findModule at h
      rw [hred] at h
      have hstep : findModule (spliceSecondToLast (r0 :: rest)) d hasReq req
          = .ok (r, req') := by
        cases a with
        | seed s => exact absurd (jsReduceGo_ok_seed hred).1 (by simp)
        | node n => exact absurd rfl (hnn n)
        | undef => exact h
      have hsw : specWalk d (r0 :: rest) = none := by
        cases a with
        | seed s => exact absurd (jsReduceGo_ok_seed hred).1 (by simp)
        | node n => exact absurd rfl (hnn n)
        | undef => exact (jsReduce_specWalk _ (by simp) d).2 hred
      rw [routeFinderSpec_cons_none hsw]
      exact ih _ _ hstep
  · intro d p q P Q hp hq htop
    refine ⟨?_, htop⟩
    have h1 : jsReduce d [p, q] = .ok .undef := by
      simp [jsReduce, jsReduceGo, JsVal.depsOf, hp, hq]
    have h2 : jsReduce d [q] = .ok (.node Q) := by
      simp [jsReduce, jsReduceGo, JsVal.depsOf, htop]
    have hsplice : spliceSecondToLast [p, q] = [q] := by
      simp [spliceSecondToLast]
    unfold findModule
    rw [h1]
    simp only [hsplice]
    unfold findModule
    rw [h2]
    simp

/-! ## Concrete fixtures for the route-resolution theorems -/

/-- Fixture: the `yen@1.2.4` package of the spec's §8 example, installed at
the top level. -/
def yenNode : DepNode := .mk "1.2.4" "index.js" "/proj/node_modules" []

/-- Fixture: a package whose dependencies object is empty. -/
def pNode : DepNode := .mk "0.1.0" "index.js" "/proj/node_modules" []

/-- Fixture: a dependency installed nested under `outer`. -/
def innerNode : DepNode :=
  .mk "2.0.0" "index.js" "/proj/node_modules/outer/node_modules" []

/-- Fixture: a top-level package with `inner` as its nested dependency. -/
def outerNode : DepNode := .mk "1.0.0" "index.js" "/proj/node_modules" [("inner", innerNode)]

/-- Fixture: a leaf package used by the non-totality theorem. -/
def gammaNode : DepNode := .mk "3.0.0" "main.js" "/root/node_modules" []

/-- C2 counterexample: on the map `{ yen }` and the route
`["ez-editor", "yen"]` — whose first segment is absent at the top level —
`findModule` throws a `TypeError` instead of dropping the second-to-last
segment and retrying, even though the first successful truncation attempt
of the spec-side RouteFinder (the shallow route `["yen"]`) would have
produced `yen`'s node.  So the claim's universally quantified retry/first-
success behaviour is false as stated. -/
theorem findModule_crash_preempts_retry_counterexample :
    findModule ["ez-editor", "yen"] [("yen", yenNode)] false [] = .error .typeError ∧
    routeFinderSpec [("yen", yenNode)] ["ez-editor", "yen"] = some yenNode := by
  constructor
  · unfold findModule
    simp [jsReduce, jsReduceGo, JsVal.depsOf, dmLookup]
  · simp [routeFinderSpec, truncationAttempts, spliceSecondToLast, specWalk, dmLookup,
      List.findSome?_cons]

/-- C2 witness: both parts of
`findModule_resolves_first_successful_attempt` instantiated — the
single-segment route `["yen"]` resolves to `yen`'s node, which is the
spec-side RouteFinder's answer; and the hoisted two-segment route
`["p", "yen"]` resolves `yen` at the ancestor level to the very node a
shallow lookup returns. -/
theorem findModule_resolves_first_successful_attempt_witness :
    ((some yenNode : Option DepNode) =
      routeFinderSpec [("yen", yenNode)] ["yen"]) ∧
    (findModule ["p", "yen"] [("p", pNode), ("yen", yenNode)] false []
        = .ok (some yenNode, []) ∧
      dmLookup [("p", pNode), ("yen", yenNode)] "yen" = some yenNode) :=
  ⟨findModule_resolves_first_successful_attempt.1 ["yen"] [("yen", yenNode)] false []
      (some yenNode) []
      (by unfold findModule
          simp [jsReduce, jsReduceGo, JsVal.depsOf, dmLookup]),
   findModule_resolves_first_successful_attempt.2 [("p", pNode), ("yen", yenNode)]
      "p" "yen" pNode yenNode
      (by simp [dmLookup]) (by simp [pNode, DepNode.deps, dmLookup]) (by simp [dmLookup])⟩

/-! ## C10: findModule is not total -/

/-- C10: `findModule` is not total.  On the map `{ beta }` and the
two-segment route `["alpha", "beta"]` — the first segment absent from the
top level — the nested-lookup walk dereferences `undefined` and throws a
`TypeError` (it does not return the not-found `null` result, which the
model renders as `.ok (none, _)`). -/
theorem findModule_typeError_on_missing_first_segment :
    findModule ["alpha", "beta"] [("beta", gammaNode)] false [] = .error .typeError ∧
    jsReduce [("beta", gammaNode)] ["alpha", "beta"] = .error .typeError := by
  constructor
  · unfold findModule
    simp [jsReduce, jsReduceGo, JsVal.depsOf, dmLookup]
  · simp [jsReduce, jsReduceGo, JsVal.depsOf, dmLookup]

/-! ## C3: what findModule stores into the RequiredMap sink -/

/-- C3 counterexample: resolving the route `["outer", "inner"]` succeeds
with the nested node `inner`, but the entry stored into the RequiredMap
sink is (a deep copy of) the TOP-LEVEL node `outer` — keyed by the route
head — which is not structurally equal to the resolved node.  So the
claim that the stored entry is structurally equal to the resolved node is
false. -/
theorem findModule_req_entry_not_resolved_node_counterexample :
    findModule ["outer", "inner"] [("outer", outerNode)] true [] =
      .ok (some innerNode, [("outer", outerNode)]) ∧ outerNode ≠ innerNode := by
  constructor
  · unfold findModule
    simp [jsReduce, jsReduceGo, JsVal.depsOf, dmLookup, outerNode, DepNode.deps,
      reqSet, deepCopy]
  · intro h
    rw [outerNode, innerNode] at h
    injection h with h1
    exact absurd h1 (by decide)

/-- C3 amended: whenever `findModule` succeeds with a truthy RequiredMap
sink, the entry it stores is keyed by the head `r0` of the route as
truncated at the successful attempt (a member of the original route), and
its value is a deep copy of the top-level DependenciesMap entry
`dependenciesMap[r0]` — not, in general, the resolved node. -/
theorem findModule_req_stores_copy_of_top_entry :
    ∀ (route : List String) (d : DependenciesMap) (hasReq : Bool) (req : ReqMap),
    hasReq = true → ∀ (n : DepNode) (req' : ReqMap),
    findModule route d hasReq req = .ok (some n, req') →
    ∃ r0 topn, r0 ∈ route ∧ dmLookup d r0 = some topn ∧
      req' = reqSet req r0 (deepCopy topn) := by
  intro route d hasReq req
  induction route, d, hasReq, req using findModule.induct with
  | case1 d hasReq req =>
    intro _ n req' h
    simp [findModule] at h
  | case2 d hasReq req r0 rest e hred =>
    intro _ n req' h
    unfold findModule at h
    rw [hred] at h
    exact absurd h (by simp)
  | case3 d req r0 rest n hred topn hlook =>
    intro _ n' req' h
    unfold findModule at h
    rw [hred, hlook] at h
    simp only [if_true, Except.ok.injEq, Prod.mk.injEq] at h
    exact ⟨r0, topn, List.mem_cons_self _ _, hlook, h.2.symm⟩
  | case4 d req r0 rest n hred hlook =>
    intro _ n' req' h
    unfold findModule at h
    rw [hred, hlook] at h
    exact absurd h (by simp)
  | case5 d hasReq req r0 rest n hred hnr =>
    intro htrue
    exact absurd htrue hnr
  | case6 d hasReq req r0 rest a hnn hred ih =>
    intro htrue n req' h
    unfold findModule at h
    rw [hred] at h
    have hstep : findModule (spliceSecondToLast (r0 :: rest)) d hasReq req
        = .ok (some n, req') := by
      cases a with
      | seed s => exact absurd (jsReduceGo_ok_seed hred).1 (by simp)
      | node n => exact absurd rfl (hnn n)
      | undef => exact h
    obtain ⟨r1, topn, hmem, hlook, heq⟩ := ih htrue n req' hstep
    exact ⟨r1, topn, spliceSecondToLast_subset _ _ hmem, hlook, heq⟩

/-- C3 witness: the amended statement instantiated at the
`["outer", "inner"]` resolution — the stored entry is the top-level
`outer` node keyed by `"outer"`. -/
theorem findModule_req_stores_copy_of_top_entry_witness :
    ∃ r0 topn, r0 ∈ ["outer", "inner"] ∧
      dmLookup [("outer", outerNode)] r0 = some topn ∧
      [("outer", outerNode)] = reqSet [] r0 (deepCopy topn) :=
  findModule_req_stores_copy_of_top_entry ["outer", "inner"] [("outer", outerNode)]
    true [] rfl innerNode [("outer", outerNode)]
    (by unfold findModule
        simp [jsReduce, jsReduceGo, JsVal.depsOf, dmLookup, outerNode, DepNode.deps,
          reqSet, deepCopy])

/-! ## Path model

Node's `path.basename`, `path.dirname` and `path.join`, implemented over
character lists so that both concrete evaluation and symbolic reasoning
work.  Paths are split on `'/'`; `join` drops empty and `.` segments and
lets `..` pop the previous segment, as Node's normalisation does. -/

/-- `\w` of the JavaScript regexes involved. -/
def isWordChar (c : Char) : Bool := c.isAlphanum || c = '_'

/-- `[0-9a-f]` — one lowercase hex digit. -/
def isHexLower (c : Char) : Bool := c.isDigit || ('a' ≤ c && c ≤ 'f')

/-- Split a character list on `'/'`; never returns `[]`. -/
def splitSeg : List Char → List (List Char)
  | [] => [[]]
  | c :: rest =>
    match splitSeg rest with
    | [] => [[]]
    | s :: ss => if c = '/' then [] :: s :: ss else (c :: s) :: ss

/-- Reassemble segments with `'/'` separators. -/
def joinSegsBack : List (List Char) → List Char
  | [] => []
  | [s] => s
  | s :: t :: ss => s ++ '/' :: joinSegsBack (t :: ss)

/-- Node path normalisation over segments: drop empty and `.` segments,
let `..` pop the previously accepted segment. -/
def normAccum (acc : List (List Char)) : List (List Char) → List (List Char)
  | [] => acc
  | s :: ss =>
    if s = [] ∨ s = ['.'] then normAccum acc ss
    else if s = ['.', '.'] then normAccum acc.dropLast ss
    else normAccum (acc ++ [s]) ss

/-- `path.join(a, b)`. -/
def pathJoin (a b : String) : String :=
  let merged := normAccum [] (splitSeg a.data ++ splitSeg b.data)
  let body := joinSegsBack merged
  if a.data.head? = some '/' then String.mk ('/' :: body)
  else if merged = [] then "." else String.mk body

/-- `path.basename(s)`. -/
def basenameS (s : String) : String :=
  String.mk ((splitSeg s.data).getLastD [])

/-- `path.dirname(s)`. -/
def dirnameS (s : String) : String :=
  match (splitSeg s.data).dropLast with
  | [] => "."
  | ss => String.mk (joinSegsBack ss)

/-- Does `s` start with the characters of `pre`? -/
def leadsWith (s pre : String) : Bool :=
  s.data.take pre.data.length == pre.data

/-! ## Content-addressed cache (src/lib/Cache.js)

`RE_EXT = /(\.\w+)$/`; `read`/`write` key artifacts by
`id.replace(RE_EXT, '-' + md5hex(source) + '$1')`;
`remove` strips the regex `dash, [0-9a-f] 32 times, (\.(?:js|css)), end`
from directory entries
and deletes those whose stripped name equals the id's basename.
The md5 hash itself is an opaque parameter of the model.  The filesystem
is an association list from full path to content (`mkdirp` has no
observable effect in this model). -/

/-- Decompose `cs` as `stem ++ '.' :: ext` where `ext` is the non-empty
trailing run of word characters preceded by a dot — the `RE_EXT` match. -/
def extSplit (cs : List Char) : Option (List Char × List Char) :=
  let r := cs.reverse
  let extRev := r.takeWhile isWordChar
  if extRev = [] then none
  else
    match r.drop extRev.length with
    | '.' :: stemRev => some (stemRev.reverse, extRev.reverse)
    | _ => none

/-- `id.replace(RE_EXT, ins ++ '$1')`: insert `ins` before the final
extension; ids without an extension are left unchanged (no match). -/
def replaceExtIns (id : String) (ins : String) : String :=
  match extSplit id.data with
  | some (stem, ext) => String.mk (stem ++ ins.data ++ '.' :: ext)
  | none => id

/-- One alternative of the checksum-suffix regex
`dash, [0-9a-f] 32 times, (\.(?:js|css)), end`: when
`cs = stem ++ '-' :: checksum ++ ext` with `checksum` exactly 32 lowercase
hex characters and `ext` the literal extension, return `stem ++ ext`. -/
def stripHexSuffix (cs : List Char) (ext : List Char) : Option (List Char) :=
  let r := cs.reverse
  if r.take ext.length == ext.reverse then
    let rest := r.drop ext.length
    let h := rest.take 32
    if h.length == 32 && h.all isHexLower && (rest.drop 32).head? == some '-' then
      some (((rest.drop 32).drop 1).reverse ++ ext)
    else none
  else none

/-- The `entry.replace(RE, '$1')` step of `remove`, with RE the
checksum-suffix regex: strip a
32-hex-digit checksum suffix, but only in front of a `.js` or `.css`
extension; otherwise the entry is returned unchanged. -/
def stripChecksum (s : String) : String :=
  match stripHexSuffix s.data ['.', 'j', 's'] with
  | some v => String.mk v
  | none =>
    match stripHexSuffix s.data ['.', 'c', 's', 's'] with
    | some v => String.mk v
    | none => s

/-- The filesystem: full path ↦ content; first binding wins. -/
abbrev FS := List (String × String)

def fsRead (fs : FS) (p : String) : Option String :=
  match fs with
  | [] => none
  | (q, c) :: rest => if q = p then some c else fsRead rest p

def fsExists (fs : FS) (p : String) : Bool :=
  (fsRead fs p).isSome

/-- `writeFile`: (over)write one path. -/
def fsWrite (fs : FS) (p c : String) : FS :=
  (p, c) :: fs.filter (fun e => e.1 ≠ p)

/-- `exists(dir)` for a directory: some file lives strictly below it. -/
def dirExists (fs : FS) (dir : String) : Bool :=
  fs.any (fun e => leadsWith e.1 (dir ++ "/"))

/-- `Cache.prototype.read(id, source)` (src/lib/Cache.js lines 111–119). -/
def cacheRead (md5 : String → String) (dest : String) (fs : FS)
    (id source : String) : Option String :=
  let cacheName := replaceExtIns id ("-" ++ md5 source)
  let fpath := pathJoin dest cacheName
  if fsExists fs fpath then fsRead fs fpath else none

/-- `Cache.prototype.remove(id)` (src/lib/Cache.js lines 138–152): list
`id`'s directory and unlink every entry whose checksum-stripped name
equals `id`'s basename; no-op when the directory does not exist.
`readdir` + `unlink` over the association list is rendered as a filter. -/
def cacheRemove (dest : String) (fs : FS) (id : String) : FS :=
  let fname := basenameS id
  let dir := pathJoin dest (dirnameS id)
  if !dirExists fs dir then fs
  else
    fs.filter (fun e =>
      !(dirnameS e.1 == dir && stripChecksum (basenameS e.1) == fname))

/-- `Cache.prototype.write(id, source, content)` (src/lib/Cache.js lines
121–129): remove existing variants, then persist the content at the
checksum-suffixed path. -/
def cacheWrite (md5 : String → String) (dest : String) (fs : FS)
    (id source content : String) : FS :=
  let cacheId := replaceExtIns id ("-" ++ md5 source)
  let fpath := pathJoin dest cacheId
  fsWrite (cacheRemove dest fs id) fpath content

/-! ## C5: the cache round trip -/

/-- C5: `write(id, s1, c1)` followed by `read(id, s1)` returns exactly
`c1` — `read` recomputes the same checksum of `s1` and finds the artifact
`write` persisted; and `read` with a source whose checksum path has no
artifact on disk yields absence (`none`), not an error. -/
theorem cache_write_then_read_roundtrip :
    (∀ (md5 : String → String) (dest : String) (fs : FS) (id s1 c1 : String),
      cacheRead md5 dest (cacheWrite md5 dest fs id s1 c1) id s1 = some c1) ∧
    (∀ (md5 : String → String) (dest : String) (fs : FS) (id source : String),
      fsExists fs (pathJoin dest (replaceExtIns id ("-" ++ md5 source))) = false →
      cacheRead md5 dest fs id source = none) := by
  constructor
  · intro md5 dest fs id s1 c1
    simp [cacheRead, cacheWrite, fsWrite, fsExists, fsRead]
  · intro md5 dest fs id source h
    simp only [cacheRead, h, Bool.false_eq_true, if_false]

/-- C5 witness: the round trip and the absence case at a concrete cache. -/
theorem cache_write_then_read_roundtrip_witness :
    cacheRead (fun _ => "0123456789abcdef0123456789abcdef") "/cache"
      (cacheWrite (fun _ => "0123456789abcdef0123456789abcdef") "/cache" []
        "app.js" "var a = 1" "compiled") "app.js" "var a = 1" = some "compiled" ∧
    cacheRead (fun _ => "0123456789abcdef0123456789abcdef") "/cache" []
      "app.js" "var a = 1" = none :=
  ⟨cache_write_then_read_roundtrip.1 _ "/cache" [] "app.js" "var a = 1" "compiled",
   cache_write_then_read_roundtrip.2 _ "/cache" [] "app.js" "var a = 1" rfl⟩

/-! ## C6: what remove actually strips, and the per-id artifact invariant -/

/-- A 32-character lowercase-hex digest fixture. -/
def hexDigestA : String := "aaaaaaaaaaaaaaaaaaaaaaaaaaaaaaaa"

/-- A second, distinct digest fixture. -/
def hexDigestB : String := "bbbbbbbbbbbbbbbbbbbbbbbbbbbbbbbb"

/-- md5 stand-in mapping the two sources of the counterexample to the two
digest fixtures. -/
def md5Cex : String → String := fun s => if s = "one" then hexDigestA else hexDigestB

/-- C6 counterexample: for the id `a.coffee`, `remove` does NOT delete the
checksum-suffixed artifact (its regex strips the suffix only before a
`.js` or `.css` extension, not before `.coffee`), and consequently two
successive successful writes with different sources leave TWO
checksum-suffixed artifacts for the id on disk — refuting both the
claim's description of `remove` and its "at most one artifact … regardless
of id's extension" consequence. -/
theorem cache_remove_ignores_other_extensions_counterexample :
    (cacheRemove "/cache" [("/cache/a-" ++ hexDigestA ++ ".coffee", "c1")] "a.coffee"
      = [("/cache/a-" ++ hexDigestA ++ ".coffee", "c1")]) ∧
    (cacheWrite md5Cex "/cache" (cacheWrite md5Cex "/cache" [] "a.coffee" "one" "c1")
        "a.coffee" "two" "c2"
      = [("/cache/a-" ++ hexDigestB ++ ".coffee", "c2"),
         ("/cache/a-" ++ hexDigestA ++ ".coffee", "c1")]) := by
  constructor
  · rfl
  · rfl

/-! ## Path lemmas for the amended artifact-uniqueness theorem -/

theorem splitSeg_ne_nil (cs : List Char) : splitSeg cs ≠ [] := by
  cases cs with
  | nil => simp [splitSeg]
  | cons c rest =>
    simp only [splitSeg]
    cases h : splitSeg rest with
    | nil => simp
    | cons s ss => by_cases hc : c = '/' <;> simp [hc]

theorem splitSeg_no_slash (cs : List Char) (h : ∀ c ∈ cs, c ≠ '/') :
    splitSeg cs = [cs] := by
  induction cs with
  | nil => rfl
  | cons c rest ih =>
    have hc : c ≠ '/' := h c (by simp)
    have hrest : ∀ x ∈ rest, x ≠ '/' := fun x hx => h x (by simp [hx])
    simp only [splitSeg, ih hrest]
    simp [hc]

theorem splitSeg_append_slash (xs ys : List Char) :
    splitSeg (xs ++ '/' :: ys) = splitSeg xs ++ splitSeg ys := by
  induction xs with
  | nil =>
    cases h : splitSeg ys with
    | nil => exact absurd h (splitSeg_ne_nil ys)
    | cons s ss => simp [splitSeg, h]
  | cons c xs' ih =>
    have hstep : splitSeg (c :: xs' ++ '/' :: ys) =
        match splitSeg (xs' ++ '/' :: ys) with
        | [] => [[]]
        | s :: ss => if c = '/' then [] :: s :: ss else (c :: s) :: ss := rfl
    have hstep2 : splitSeg (c :: xs') =
        match splitSeg xs' with
        | [] => [[]]
        | s :: ss => if c = '/' then [] :: s :: ss else (c :: s) :: ss := rfl
    rw [hstep, hstep2, ih]
    cases h : splitSeg xs' with
    | nil => exact absurd h (splitSeg_ne_nil xs')
    | cons s ss =>
      by_cases hc : c = '/' <;> simp [hc]

theorem joinSegsBack_cons_head (c : Char) (s : List Char) (ss : List (List Char)) :
    joinSegsBack ((c :: s) :: ss) = c :: joinSegsBack (s :: ss) := by
  cases ss <;> simp [joinSegsBack]

theorem joinSegsBack_splitSeg (cs : List Char) : joinSegsBack (splitSeg cs) = cs := by
  induction cs with
  | nil => rfl
  | cons c rest ih =>
    simp only [splitSeg]
    cases h : splitSeg rest with
    | nil => exact absurd h (splitSeg_ne_nil rest)
    | cons s ss =>
      rw [h] at ih
      by_cases hc : c = '/'
      · subst hc
        simp [joinSegsBack, ih]
      · simp only [hc, if_false]
        rw [joinSegsBack_cons_head, ih]

theorem joinSegsBack_append_singleton (l : List (List Char)) (a : List Char)
    (h : l ≠ []) : joinSegsBack (l ++ [a]) = joinSegsBack l ++ '/' :: a := by
  induction l with
  | nil => exact absurd rfl h
  | cons s l' ih =>
    cases l' with
    | nil => simp [joinSegsBack]
    | cons t l'' =>
      have hih := ih (by simp)
      simp only [List.cons_append] at hih ⊢
      simp only [joinSegsBack]
      rw [hih]
      simp

theorem strMk_data (s : String) : String.mk s.data = s := rfl

/-- A path whose `dirname` is `dv ≠ "."` begins with `dv ++ "/"`. -/
theorem leadsWith_of_dirnameS {x dv : String} (h : dirnameS x = dv) (hne : dv ≠ ".") :
    leadsWith x (dv ++ "/") = true := by
  have hsegs : splitSeg x.data ≠ [] := splitSeg_ne_nil x.data
  cases hh : (splitSeg x.data).dropLast with
  | nil =>
    exfalso
    apply hne
    rw [← h]
    unfold dirnameS
    rw [hh]
  | cons s ss =>
    have hdv : String.mk (joinSegsBack (s :: ss)) = dv := by
      rw [← h]
      unfold dirnameS
      rw [hh]
    have hdata : joinSegsBack (s :: ss) = dv.data := by
      rw [← hdv]
    have hx : x.data = joinSegsBack ((splitSeg x.data).dropLast ++
        [(splitSeg x.data).getLast hsegs]) := by
      rw [List.dropLast_append_getLast hsegs, joinSegsBack_splitSeg]
    rw [hh, joinSegsBack_append_singleton _ _ (by simp), hdata] at hx
    unfold leadsWith
    rw [String.data_append, hx]
    have hone : ("/" : String).data = ['/'] := rfl
    rw [hone]
    have hlen : (dv.data ++ ['/']).length = dv.data.length + 1 := by simp
    rw [hlen, List.take_append 1]
    simp [List.take]

/-- Stripping the checksum suffix succeeds on `stem ++ "-" ++ digest ++ ext`
when the digest is exactly 32 lowercase hex characters. -/
theorem stripHexSuffix_eq (stem hd ext : List Char)
    (hlen : hd.length = 32) (hhex : ∀ c ∈ hd, isHexLower c = true) :
    stripHexSuffix (stem ++ '-' :: (hd ++ ext)) ext = some (stem ++ ext) := by
  simp only [stripHexSuffix]
  have hrev : (stem ++ '-' :: (hd ++ ext)).reverse
      = ext.reverse ++ (hd.reverse ++ '-' :: stem.reverse) := by
    rw [List.reverse_append, List.reverse_cons, List.reverse_append]
    simp [List.append_assoc]
  rw [hrev]
  have h1 : (ext.reverse ++ (hd.reverse ++ '-' :: stem.reverse)).take ext.length
      = ext.reverse := by
    rw [← List.length_reverse ext]
    exact List.take_left _ _
  have h2 : (ext.reverse ++ (hd.reverse ++ '-' :: stem.reverse)).drop ext.length
      = hd.reverse ++ '-' :: stem.reverse := by
    rw [← List.length_reverse ext]
    exact List.drop_left _ _
  rw [h1, h2]
  simp only [beq_self_eq_true, if_true]
  have h3 : (hd.reverse ++ '-' :: stem.reverse).take 32 = hd.reverse := by
    rw [← hlen, ← List.length_reverse hd]
    exact List.take_left _ _
  have h4 : (hd.reverse ++ '-' :: stem.reverse).drop 32 = '-' :: stem.reverse := by
    rw [← hlen, ← List.length_reverse hd]
    exact List.drop_left _ _
  rw [h3, h4]
  have h5 : hd.reverse.length = 32 := by rw [List.length_reverse, hlen]
  have h6 : hd.reverse.all isHexLower = true :=
    List.all_eq_true.mpr fun x hx => hhex x (List.mem_reverse.mp hx)
  rw [h5, h6]
  simp [List.reverse_reverse]

/-- `stripChecksum` recovers `stem.js` from `stem-digest.js` for a 32-hex
digest. -/
theorem stripChecksum_js (stem : List Char) (h : String)
    (hlen : h.data.length = 32) (hhex : ∀ c ∈ h.data, isHexLower c = true) :
    stripChecksum (String.mk (stem ++ '-' :: (h.data ++ ['.', 'j', 's']))) =
      String.mk (stem ++ ['.', 'j', 's']) := by
  unfold stripChecksum
  rw [show (String.mk (stem ++ '-' :: (h.data ++ ['.', 'j', 's']))).data
      = stem ++ '-' :: (h.data ++ ['.', 'j', 's']) from rfl]
  rw [stripHexSuffix_eq stem h.data ['.', 'j', 's'] hlen hhex]

/-- `path.join("/cache", nm)` for a flat, non-special segment `nm`. -/
theorem pathJoin_cache_flat (nm : String) (hslash : ∀ c ∈ nm.data, c ≠ '/')
    (h1 : nm.data ≠ []) (h2 : nm.data ≠ ['.']) (h3 : nm.data ≠ ['.', '.']) :
    pathJoin "/cache" nm = String.mk ('/' :: ("cache".data ++ '/' :: nm.data)) := by
  have s1 : normAccum [] [[], "cache".data, nm.data]
      = normAccum [] ["cache".data, nm.data] := by
    rw [normAccum]
    simp
  have s2 : normAccum [] ["cache".data, nm.data]
      = normAccum ["cache".data] [nm.data] := by
    rw [normAccum]
    rw [if_neg (by decide), if_neg (by decide)]
    rfl
  have s3 : normAccum ["cache".data] [nm.data] = ["cache".data, nm.data] := by
    rw [normAccum]
    rw [if_neg (by simp [h1, h2]), if_neg h3]
    rfl
  simp only [pathJoin]
  rw [splitSeg_no_slash nm.data hslash]
  rw [show splitSeg ("/cache" : String).data = [[], "cache".data] from rfl]
  rw [show ([[], "cache".data] ++ [nm.data] : List (List Char))
      = [[], "cache".data, nm.data] from rfl]
  rw [s1, s2, s3]
  rw [if_pos (show ("/cache" : String).data.head? = some '/' from rfl)]
  rfl

/-- basename and dirname of `"/cache/" ++ nm` for a flat segment `nm`. -/
theorem basename_dirname_cache_path (nm : String) (hslash : ∀ c ∈ nm.data, c ≠ '/') :
    basenameS (String.mk ('/' :: ("cache".data ++ '/' :: nm.data))) = nm ∧
    dirnameS (String.mk ('/' :: ("cache".data ++ '/' :: nm.data))) = "/cache" := by
  have hdata : (String.mk ('/' :: ("cache".data ++ '/' :: nm.data))).data
      = ("/cache" : String).data ++ '/' :: nm.data := rfl
  have hsplit : splitSeg (("/cache" : String).data ++ '/' :: nm.data)
      = [[], "cache".data, nm.data] := by
    rw [splitSeg_append_slash, splitSeg_no_slash nm.data hslash]
    rfl
  constructor
  · unfold basenameS
    rw [hdata, hsplit]
    exact strMk_data nm
  · unfold dirnameS
    rw [hdata, hsplit]
    rw [show ([[], "cache".data, nm.data] : List (List Char)).dropLast
        = [[], "cache".data] from rfl]
    rfl

/-- The shape of an md5 hex digest: exactly 32 lowercase hex characters. -/
def HexDigest32 (h : String) : Prop :=
  h.data.length = 32 ∧ ∀ c ∈ h.data, isHexLower c = true

/-! ## Segment-level path lemmas: general destinations and ids -/

/-- A normalised path segment: non-empty, not `.` or `..`, and free of
slashes — exactly the segments `path.join` passes through unchanged. -/
abbrev PlainSeg (s : List Char) : Prop :=
  s ≠ [] ∧ s ≠ ['.'] ∧ s ≠ ['.', '.'] ∧ '/' ∉ s

theorem takeWhile_stops (p : Char → Bool) (l1 l2 : List Char) (x : Char)
    (h1 : ∀ c ∈ l1, p c = true) (hx : p x = false) :
    (l1 ++ x :: l2).takeWhile p = l1 := by
  induction l1 with
  | nil => simp [List.takeWhile_cons, hx]
  | cons c cs ih =>
    have hc : p c = true := h1 c (by simp)
    simp only [List.cons_append, List.takeWhile_cons, hc]
    rw [ih (fun d hd => h1 d (by simp [hd]))]
    simp

/-- `RE_EXT` on a string of shape `X ++ "." ++ ext`: the match returns
exactly `(X, ext)` whenever `ext` is a non-empty run of word characters —
the dot stops the maximal trailing run no matter what `X` is. -/
theorem extSplit_concat (X ext : List Char) (hne : ext ≠ [])
    (hw : ∀ c ∈ ext, isWordChar c = true) :
    extSplit (X ++ '.' :: ext) = some (X, ext) := by
  simp only [extSplit]
  have hrev : (X ++ '.' :: ext).reverse = ext.reverse ++ '.' :: X.reverse := by
    simp
  rw [hrev]
  have htw : (ext.reverse ++ '.' :: X.reverse).takeWhile isWordChar = ext.reverse :=
    takeWhile_stops _ _ _ _ (fun c hc => hw c (List.mem_reverse.mp hc)) (by decide)
  rw [htw]
  rw [if_neg (by simpa using hne)]
  rw [List.drop_left]
  show some ((X.reverse).reverse, (ext.reverse).reverse) = some (X, ext)
  rw [List.reverse_reverse, List.reverse_reverse]

/-- Segment reassembly absorbs a suffix appended to the final segment. -/
theorem joinSegsBack_last_append (l : List (List Char)) (a b : List Char) :
    joinSegsBack (l ++ [a]) ++ b = joinSegsBack (l ++ [a ++ b]) := by
  cases l with
  | nil => rfl
  | cons x l' =>
    rw [joinSegsBack_append_singleton (x :: l') a (by simp),
      joinSegsBack_append_singleton (x :: l') (a ++ b) (by simp)]
    simp

/-- Splitting an absolute path: the leading slash contributes one empty
segment. -/
theorem splitSeg_cons_slash (X : List Char) :
    splitSeg ('/' :: X) = [] :: splitSeg X := by
  simp only [splitSeg]
  cases h : splitSeg X with
  | nil => exact absurd h (splitSeg_ne_nil X)
  | cons s ss => simp

/-- Splitting is a left inverse of reassembly on slash-free segments. -/
theorem splitSeg_joinSegsBack (segs : List (List Char)) (hne : segs ≠ [])
    (h : ∀ s ∈ segs, '/' ∉ s) : splitSeg (joinSegsBack segs) = segs := by
  induction segs with
  | nil => exact absurd rfl hne
  | cons a rest ih =>
    cases rest with
    | nil =>
      rw [show joinSegsBack [a] = a from rfl]
      exact splitSeg_no_slash a (fun c hc hceq => (h a (by simp)) (hceq ▸ hc))
    | cons b rest' =>
      rw [show joinSegsBack (a :: b :: rest') = a ++ '/' :: joinSegsBack (b :: rest')
          from rfl]
      rw [splitSeg_append_slash]
      rw [splitSeg_no_slash a (fun c hc hceq => (h a (by simp)) (hceq ▸ hc))]
      rw [ih (by simp) (fun s hs => h s (by simp [hs]))]
      rfl

/-- `normAccum` drops an empty or `.` segment. -/
theorem normAccum_skip (acc : List (List Char)) (s : List Char)
    (ss : List (List Char)) (h : s = [] ∨ s = ['.']) :
    normAccum acc (s :: ss) = normAccum acc ss := by
  simp only [normAccum]
  rw [if_pos h]

/-- `normAccum` passes plain segments straight through. -/
theorem normAccum_plain (segs : List (List Char))
    (h : ∀ s ∈ segs, s ≠ [] ∧ s ≠ ['.'] ∧ s ≠ ['.', '.']) :
    ∀ acc, normAccum acc segs = acc ++ segs := by
  induction segs with
  | nil => intro acc; simp [normAccum]
  | cons s ss ih =>
    intro acc
    obtain ⟨h1, h2, h3⟩ := h s (by simp)
    simp only [normAccum]
    rw [if_neg (by simp [h1, h2]), if_neg h3]
    rw [ih (fun x hx => h x (by simp [hx])) (acc ++ [s])]
    simp

/-- `normAccum` processes a concatenation sequentially. -/
theorem normAccum_append (l1 l2 : List (List Char)) :
    ∀ acc, normAccum acc (l1 ++ l2) = normAccum (normAccum acc l1) l2 := by
  induction l1 with
  | nil => intro acc; rfl
  | cons s ss ih =>
    intro acc
    simp only [List.cons_append, normAccum, List.append_eq]
    by_cases h1 : s = [] ∨ s = ['.']
    · rw [if_pos h1, if_pos h1, ih]
    · rw [if_neg h1, if_neg h1]
      by_cases h2 : s = ['.', '.']
      · rw [if_pos h2, if_pos h2, ih]
      · rw [if_neg h2, if_neg h2, ih]

/-- Normalising an absolute path's segments: the leading empty segment is
dropped and the plain directory segments accumulate unchanged. -/
theorem normAccum_abs_dir (dSegs : List (List Char))
    (hdcond : ∀ s ∈ dSegs, s ≠ [] ∧ s ≠ ['.'] ∧ s ≠ ['.', '.'])
    (X : List (List Char)) :
    normAccum [] (([] :: dSegs) ++ X) = normAccum dSegs X := by
  rw [show (([] :: dSegs) ++ X) = [] :: (dSegs ++ X) from rfl]
  rw [normAccum_skip _ _ _ (Or.inl rfl)]
  rw [normAccum_append]
  rw [normAccum_plain dSegs hdcond]
  rw [List.nil_append]

/-- `path.join` of an absolute normalised directory and a relative
normalised path concatenates their segment lists. -/
theorem pathJoin_abs (dSegs bSegs : List (List Char)) (hd : dSegs ≠ [])
    (hdp : ∀ s ∈ dSegs, PlainSeg s) (hbp : ∀ s ∈ bSegs, PlainSeg s) :
    pathJoin (String.mk ('/' :: joinSegsBack dSegs)) (String.mk (joinSegsBack bSegs))
      = String.mk ('/' :: joinSegsBack (dSegs ++ bSegs)) := by
  have hds : ∀ s ∈ dSegs, '/' ∉ s := fun s hs => (hdp s hs).2.2.2
  have hdcond : ∀ s ∈ dSegs, s ≠ [] ∧ s ≠ ['.'] ∧ s ≠ ['.', '.'] :=
    fun s hs => ⟨(hdp s hs).1, (hdp s hs).2.1, (hdp s hs).2.2.1⟩
  simp only [pathJoin]
  rw [splitSeg_cons_slash, splitSeg_joinSegsBack dSegs hd hds]
  rw [if_pos (show ('/' :: joinSegsBack dSegs).head? = some '/' from rfl)]
  cases bSegs with
  | nil =>
    rw [show joinSegsBack ([] : List (List Char)) = [] from rfl,
      show splitSeg ([] : List Char) = [[]] from rfl]
    rw [normAccum_abs_dir dSegs hdcond]
    rw [normAccum_skip _ _ _ (Or.inl rfl)]
    rw [show normAccum dSegs [] = dSegs from rfl]
    simp
  | cons b bs =>
    have hbs : ∀ s ∈ (b :: bs), '/' ∉ s := fun s hs => (hbp s hs).2.2.2
    rw [splitSeg_joinSegsBack (b :: bs) (by simp) hbs]
    rw [normAccum_abs_dir dSegs hdcond]
    rw [normAccum_plain (b :: bs) (fun s hs => ⟨(hbp s hs).1, (hbp s hs).2.1,
      (hbp s hs).2.2.1⟩)]

/-- `path.join(dir, ".")` leaves an absolute normalised directory as is. -/
theorem pathJoin_abs_dot (dSegs : List (List Char)) (hd : dSegs ≠ [])
    (hdp : ∀ s ∈ dSegs, PlainSeg s) :
    pathJoin (String.mk ('/' :: joinSegsBack dSegs)) "."
      = String.mk ('/' :: joinSegsBack dSegs) := by
  have hds : ∀ s ∈ dSegs, '/' ∉ s := fun s hs => (hdp s hs).2.2.2
  have hdcond : ∀ s ∈ dSegs, s ≠ [] ∧ s ≠ ['.'] ∧ s ≠ ['.', '.'] :=
    fun s hs => ⟨(hdp s hs).1, (hdp s hs).2.1, (hdp s hs).2.2.1⟩
  simp only [pathJoin]
  rw [show splitSeg ['.'] = [['.']] from rfl]
  rw [splitSeg_cons_slash, splitSeg_joinSegsBack dSegs hd hds]
  rw [if_pos (show ('/' :: joinSegsBack dSegs).head? = some '/' from rfl)]
  rw [normAccum_abs_dir dSegs hdcond]
  rw [normAccum_skip _ _ _ (Or.inr rfl)]
  rw [show normAccum dSegs [] = dSegs from rfl]

/-- basename and dirname of an absolute normalised path with at least one
directory segment. -/
theorem basename_dirname_abs (pSegs : List (List Char)) (lastSeg : List Char)
    (hne : pSegs ≠ []) (hp : ∀ s ∈ pSegs, '/' ∉ s) (hl : '/' ∉ lastSeg) :
    basenameS (String.mk ('/' :: joinSegsBack (pSegs ++ [lastSeg])))
      = String.mk lastSeg ∧
    dirnameS (String.mk ('/' :: joinSegsBack (pSegs ++ [lastSeg])))
      = String.mk ('/' :: joinSegsBack pSegs) := by
  have hmem : ∀ s ∈ pSegs ++ [lastSeg], '/' ∉ s := by
    intro s hs
    rcases List.mem_append.mp hs with hM | hM
    · exact hp s hM
    · rw [List.mem_singleton] at hM
      subst hM
      exact hl
  have hsp : splitSeg ('/' :: joinSegsBack (pSegs ++ [lastSeg]))
      = ([] :: pSegs) ++ [lastSeg] := by
    rw [splitSeg_cons_slash, splitSeg_joinSegsBack (pSegs ++ [lastSeg]) (by simp) hmem]
    rfl
  constructor
  · unfold basenameS
    rw [show (String.mk ('/' :: joinSegsBack (pSegs ++ [lastSeg]))).data
        = '/' :: joinSegsBack (pSegs ++ [lastSeg]) from rfl, hsp]
    rw [List.getLastD_concat]
  · unfold dirnameS
    rw [show (String.mk ('/' :: joinSegsBack (pSegs ++ [lastSeg]))).data
        = '/' :: joinSegsBack (pSegs ++ [lastSeg]) from rfl, hsp]
    rw [List.dropLast_concat]
    cases pSegs with
    | nil => exact absurd rfl hne
    | cons p ps => rfl

/-- `stripChecksum` recovers `stem.css` from `stem-digest.css`: the `.js`
alternative fails on the `.css` tail and the `.css` alternative strips. -/
theorem stripChecksum_css (stem : List Char) (h : String)
    (hlen : h.data.length = 32) (hhex : ∀ c ∈ h.data, isHexLower c = true) :
    stripChecksum (String.mk (stem ++ '-' :: (h.data ++ ['.', 'c', 's', 's']))) =
      String.mk (stem ++ ['.', 'c', 's', 's']) := by
  unfold stripChecksum
  rw [show (String.mk (stem ++ '-' :: (h.data ++ ['.', 'c', 's', 's']))).data
      = stem ++ '-' :: (h.data ++ ['.', 'c', 's', 's']) from rfl]
  have hjs : stripHexSuffix (stem ++ '-' :: (h.data ++ ['.', 'c', 's', 's']))
      ['.', 'j', 's'] = none := by
    simp only [stripHexSuffix]
    have hrev : (stem ++ '-' :: (h.data ++ ['.', 'c', 's', 's'])).reverse
        = 's' :: 's' :: 'c' :: '.' :: (h.data.reverse ++ '-' :: stem.reverse) := by
      simp
    rw [hrev]
    rw [show List.take (['.', 'j', 's'] : List Char).length
        ('s' :: 's' :: 'c' :: '.' :: (h.data.reverse ++ '-' :: stem.reverse))
        = ['s', 's', 'c'] from rfl]
    rw [if_neg (by decide)]
  rw [hjs]
  rw [stripHexSuffix_eq stem h.data ['.', 'c', 's', 's'] hlen hhex]

/-- C6 amended theorem: for every absolute normalised destination
directory, every id given as a normalised relative path whose basename
carries a `.js` or `.css` extension, every md5 producing 32-character
lowercase hex digests, and every prior cache state, a successful
`write(id, source, content)` leaves exactly one checksum-suffixed
artifact for `id` on disk — `remove` first deletes every entry of `id`'s
cache directory whose checksum-stripped name equals `id`'s basename, and
the write then persists the single new artifact. -/
theorem cache_write_single_artifact_for_js_css :
    ∀ (md5 : String → String) (fs : FS) (s c : String) (dest id : String)
      (dSegs iSegs : List (List Char)) (stemBase ext : List Char),
    HexDigest32 (md5 s) →
    dest.data = '/' :: joinSegsBack dSegs →
    dSegs ≠ [] →
    (∀ x ∈ dSegs, PlainSeg x) →
    id.data = joinSegsBack (iSegs ++ [stemBase ++ '.' :: ext]) →
    (∀ x ∈ iSegs, PlainSeg x) →
    (ext = ['j', 's'] ∨ ext = ['c', 's', 's']) →
    stemBase ≠ [] →
    '/' ∉ stemBase →
    ((cacheWrite md5 dest fs id s c).countP
      (fun e => dirnameS e.1 == pathJoin dest (dirnameS id) &&
        stripChecksum (basenameS e.1) == basenameS id)) = 1 := by
  intro md5 fs s c dest id dSegs iSegs stemBase ext hdig hdestD hdne hdp hidD hip hext
    hsne hsns
  obtain ⟨hlen, hhex⟩ := hdig
  have hdestE : dest = String.mk ('/' :: joinSegsBack dSegs) := by
    rw [← strMk_data dest, hdestD]
  have hidE : id = String.mk (joinSegsBack (iSegs ++ [stemBase ++ '.' :: ext])) := by
    rw [← strMk_data id, hidD]
  subst hdestE
  subst hidE
  set nl : List Char := stemBase ++ '-' :: ((md5 s).data ++ '.' :: ext) with hnl
  set p : String × String → Bool := fun e =>
    dirnameS e.1 == pathJoin (String.mk ('/' :: joinSegsBack dSegs))
      (dirnameS (String.mk (joinSegsBack (iSegs ++ [stemBase ++ '.' :: ext])))) &&
    stripChecksum (basenameS e.1)
      == basenameS (String.mk (joinSegsBack (iSegs ++ [stemBase ++ '.' :: ext])))
    with hp
  have hhslash : ∀ ch ∈ (md5 s).data, ch ≠ '/' := by
    intro ch hch heq
    have hx := hhex ch hch
    rw [heq] at hx
    exact absurd hx (by decide)
  have hextw : ∀ ch ∈ ext, isWordChar ch = true := by
    rcases hext with hE | hE <;> subst hE <;> decide
  have hextne : ext ≠ [] := by
    rcases hext with hE | hE <;> subst hE <;> decide
  have hextns : '/' ∉ ext := by
    rcases hext with hE | hE <;> subst hE <;> decide
  have hextlen : 2 ≤ ext.length := by
    rcases hext with hE | hE <;> subst hE <;> decide
  have hsblen : 0 < stemBase.length := List.length_pos.mpr hsne
  have hlastns : '/' ∉ stemBase ++ '.' :: ext := by
    intro hmem
    rcases List.mem_append.mp hmem with hM | hM
    · exact hsns hM
    · rcases List.mem_cons.mp hM with hM | hM
      · exact absurd hM (by decide)
      · exact hextns hM
  have hlastL : (stemBase ++ '.' :: ext).length = stemBase.length + ext.length + 1 := by
    simp only [List.length_append, List.length_cons]
    omega
  have hPlast : PlainSeg (stemBase ++ '.' :: ext) := by
    refine ⟨?_, ?_, ?_, hlastns⟩
    · intro h0
      rw [h0] at hlastL
      simp only [List.length_nil] at hlastL
      omega
    · intro h0
      rw [h0] at hlastL
      simp only [List.length_cons, List.length_nil] at hlastL
      omega
    · intro h0
      rw [h0] at hlastL
      simp only [List.length_cons, List.length_nil] at hlastL
      omega
  have hnlns : '/' ∉ nl := by
    rw [hnl]
    intro hmem
    rcases List.mem_append.mp hmem with hM | hM
    · exact hsns hM
    · rcases List.mem_cons.mp hM with hM | hM
      · exact absurd hM (by decide)
      · rcases List.mem_append.mp hM with hM | hM
        · exact hhslash '/' hM rfl
        · rcases List.mem_cons.mp hM with hM | hM
          · exact absurd hM (by decide)
          · exact hextns hM
  have hnlL : nl.length = stemBase.length + ext.length + 34 := by
    rw [hnl]
    simp only [List.length_append, List.length_cons, hlen]
    omega
  have hPnl : PlainSeg nl := by
    refine ⟨?_, ?_, ?_, hnlns⟩
    · intro h0
      rw [h0] at hnlL
      simp only [List.length_nil] at hnlL
      omega
    · intro h0
      rw [h0] at hnlL
      simp only [List.length_cons, List.length_nil] at hnlL
      omega
    · intro h0
      rw [h0] at hnlL
      simp only [List.length_cons, List.length_nil] at hnlL
      omega
  have hsplit_id : splitSeg (joinSegsBack (iSegs ++ [stemBase ++ '.' :: ext]))
      = iSegs ++ [stemBase ++ '.' :: ext] := by
    apply splitSeg_joinSegsBack _ (by simp)
    intro x hx
    rcases List.mem_append.mp hx with hM | hM
    · exact (hip x hM).2.2.2
    · rw [List.mem_singleton] at hM
      subst hM
      exact hlastns
  have hbase_id :
      basenameS (String.mk (joinSegsBack (iSegs ++ [stemBase ++ '.' :: ext])))
      = String.mk (stemBase ++ '.' :: ext) := by
    unfold basenameS
    rw [show (String.mk (joinSegsBack (iSegs ++ [stemBase ++ '.' :: ext]))).data
        = joinSegsBack (iSegs ++ [stemBase ++ '.' :: ext]) from rfl, hsplit_id]
    rw [List.getLastD_concat]
  have hdir : pathJoin (String.mk ('/' :: joinSegsBack dSegs))
      (dirnameS (String.mk (joinSegsBack (iSegs ++ [stemBase ++ '.' :: ext]))))
      = String.mk ('/' :: joinSegsBack (dSegs ++ iSegs)) := by
    unfold dirnameS
    rw [show (String.mk (joinSegsBack (iSegs ++ [stemBase ++ '.' :: ext]))).data
        = joinSegsBack (iSegs ++ [stemBase ++ '.' :: ext]) from rfl, hsplit_id]
    rw [List.dropLast_concat]
    cases iSegs with
    | nil =>
      show pathJoin (String.mk ('/' :: joinSegsBack dSegs)) "."
          = String.mk ('/' :: joinSegsBack (dSegs ++ []))
      rw [pathJoin_abs_dot dSegs hdne hdp, List.append_nil]
    | cons i0 is =>
      show pathJoin (String.mk ('/' :: joinSegsBack dSegs))
          (String.mk (joinSegsBack (i0 :: is)))
          = String.mk ('/' :: joinSegsBack (dSegs ++ i0 :: is))
      exact pathJoin_abs dSegs (i0 :: is) hdne hdp hip
  have hrewId : joinSegsBack (iSegs ++ [stemBase ++ '.' :: ext])
      = joinSegsBack (iSegs ++ [stemBase]) ++ '.' :: ext :=
    (joinSegsBack_last_append iSegs stemBase ('.' :: ext)).symm
  have hextsplit : extSplit (joinSegsBack (iSegs ++ [stemBase ++ '.' :: ext]))
      = some (joinSegsBack (iSegs ++ [stemBase]), ext) := by
    rw [hrewId]
    exact extSplit_concat _ ext hextne hextw
  have hins : ("-" ++ md5 s).data = '-' :: (md5 s).data := by
    rw [String.data_append]
    rfl
  have hrepl :
      replaceExtIns (String.mk (joinSegsBack (iSegs ++ [stemBase ++ '.' :: ext])))
        ("-" ++ md5 s) = String.mk (joinSegsBack (iSegs ++ [nl])) := by
    unfold replaceExtIns
    rw [show (String.mk (joinSegsBack (iSegs ++ [stemBase ++ '.' :: ext]))).data
        = joinSegsBack (iSegs ++ [stemBase ++ '.' :: ext]) from rfl, hextsplit]
    show String.mk (joinSegsBack (iSegs ++ [stemBase]) ++ ("-" ++ md5 s).data
        ++ '.' :: ext) = String.mk (joinSegsBack (iSegs ++ [nl]))
    rw [hins, hnl]
    rw [← joinSegsBack_last_append iSegs stemBase ('-' :: ((md5 s).data ++ '.' :: ext))]
    simp
  have hbp2 : ∀ x ∈ iSegs ++ [nl], PlainSeg x := by
    intro x hx
    rcases List.mem_append.mp hx with hM | hM
    · exact hip x hM
    · rw [List.mem_singleton] at hM
      subst hM
      exact hPnl
  have hpj : pathJoin (String.mk ('/' :: joinSegsBack dSegs))
      (String.mk (joinSegsBack (iSegs ++ [nl])))
      = String.mk ('/' :: joinSegsBack ((dSegs ++ iSegs) ++ [nl])) := by
    rw [pathJoin_abs dSegs (iSegs ++ [nl]) hdne hdp hbp2, List.append_assoc]
  have hnsl2 : ∀ x ∈ dSegs ++ iSegs, '/' ∉ x := by
    intro x hx
    rcases List.mem_append.mp hx with hM | hM
    · exact (hdp x hM).2.2.2
    · exact (hip x hM).2.2.2
  have hbdf := basename_dirname_abs (dSegs ++ iSegs) nl
    (by intro h0; exact hdne (List.append_eq_nil.mp h0).1) hnsl2 hnlns
  have hstrip : stripChecksum (String.mk nl) = String.mk (stemBase ++ '.' :: ext) := by
    rcases hext with hE | hE
    · subst hE
      rw [hnl]
      exact stripChecksum_js stemBase (md5 s) hlen hhex
    · subst hE
      rw [hnl]
      exact stripChecksum_css stemBase (md5 s) hlen hhex
  have hpnew : p (String.mk ('/' :: joinSegsBack ((dSegs ++ iSegs) ++ [nl])), c)
      = true := by
    rw [hp]
    simp only []
    rw [hbdf.1, hbdf.2, hdir, hstrip, hbase_id]
    simp
  have hdirne : String.mk ('/' :: joinSegsBack (dSegs ++ iSegs)) ≠ "." := by
    intro h0
    have h1 : '/' :: joinSegsBack (dSegs ++ iSegs) = ['.'] := congrArg String.data h0
    injection h1 with h2 h3
    exact absurd h2 (by decide)
  have hrem : ∀ fs' : FS, (cacheRemove (String.mk ('/' :: joinSegsBack dSegs)) fs'
      (String.mk (joinSegsBack (iSegs ++ [stemBase ++ '.' :: ext])))).countP p
      = 0 := by
    intro fs'
    simp only [cacheRemove]
    by_cases hde : dirExists fs' (pathJoin (String.mk ('/' :: joinSegsBack dSegs))
        (dirnameS (String.mk (joinSegsBack (iSegs ++ [stemBase ++ '.' :: ext])))))
        = true
    · rw [hde]
      simp only [Bool.not_true, Bool.false_eq_true, if_false]
      rw [List.countP_filter]
      have hff : (fun a : String × String => p a &&
          !(dirnameS a.1 == pathJoin (String.mk ('/' :: joinSegsBack dSegs))
              (dirnameS (String.mk (joinSegsBack (iSegs ++ [stemBase ++ '.' :: ext]))))
            &&
            stripChecksum (basenameS a.1)
              == basenameS (String.mk (joinSegsBack (iSegs ++ [stemBase ++ '.' :: ext])))))
          = fun _ => false := by
        funext a
        rw [hp]
        simp [Bool.and_not_self]
      rw [hp]
      rw [hff]
      exact congrFun List.countP_false fs'
    · have hde' : dirExists fs' (pathJoin (String.mk ('/' :: joinSegsBack dSegs))
          (dirnameS (String.mk (joinSegsBack (iSegs ++ [stemBase ++ '.' :: ext])))))
          = false := by
        cases hq : dirExists fs' (pathJoin (String.mk ('/' :: joinSegsBack dSegs))
            (dirnameS (String.mk (joinSegsBack (iSegs ++ [stemBase ++ '.' :: ext])))))
        · rfl
        · exact absurd hq hde
      rw [hde']
      simp only [Bool.not_false, if_true]
      rw [List.countP_eq_zero]
      intro e he hpe
      rw [hp] at hpe
      simp only [Bool.and_eq_true, beq_iff_eq] at hpe
      rw [hdir] at hpe
      have hlw : leadsWith e.1 (String.mk ('/' :: joinSegsBack (dSegs ++ iSegs)) ++ "/")
          = true := leadsWith_of_dirnameS hpe.1 hdirne
      have hdet : dirExists fs' (pathJoin (String.mk ('/' :: joinSegsBack dSegs))
          (dirnameS (String.mk (joinSegsBack (iSegs ++ [stemBase ++ '.' :: ext])))))
          = true := by
        rw [hdir]
        unfold dirExists
        rw [List.any_eq_true]
        exact ⟨e, he, hlw⟩
      rw [hde'] at hdet
      exact absurd hdet (by simp)
  simp only [cacheWrite, fsWrite]
  rw [hrepl, hpj]
  rw [List.countP_cons]
  have hzero : ((cacheRemove (String.mk ('/' :: joinSegsBack dSegs)) fs
      (String.mk (joinSegsBack (iSegs ++ [stemBase ++ '.' :: ext])))).filter
      (fun e => e.1 ≠ String.mk ('/' :: joinSegsBack ((dSegs ++ iSegs) ++ [nl])))).countP
      p = 0 := by
    rw [List.countP_eq_zero]
    intro a ha
    exact List.countP_eq_zero.mp (hrem fs) a (List.mem_of_mem_filter ha)
  rw [hzero, hpnew]
  rfl

/-- C6 witness: the artifact-uniqueness invariant applied at two concrete
writes — a flat `.js` id in `/cache` and a nested `.css` id in `/assets`. -/
theorem cache_write_single_artifact_for_js_css_witness :
    ((cacheWrite (fun _ => hexDigestA) "/cache" [] "app.js" "var a" "out").countP
      (fun e => dirnameS e.1 == pathJoin "/cache" (dirnameS "app.js") &&
        stripChecksum (basenameS e.1) == basenameS "app.js")) = 1 ∧
    ((cacheWrite (fun _ => hexDigestA) "/assets" [] "widget/style.css" "body" "c").countP
      (fun e => dirnameS e.1 == pathJoin "/assets" (dirnameS "widget/style.css") &&
        stripChecksum (basenameS e.1) == basenameS "widget/style.css")) = 1 :=
  ⟨cache_write_single_artifact_for_js_css (fun _ => hexDigestA) [] "var a" "out"
      "/cache" "app.js" ["cache".data] [] "app".data ['j', 's']
      ⟨by decide, by decide⟩ rfl (by decide) (by decide) rfl (by decide)
      (Or.inl rfl) (by decide) (by decide),
   cache_write_single_artifact_for_js_css (fun _ => hexDigestA) [] "body" "c"
      "/assets" "widget/style.css" ["assets".data] ["widget".data] "style".data
      ['c', 's', 's']
      ⟨by decide, by decide⟩ rfl (by decide) (by decide) rfl (by decide)
      (Or.inr rfl) (by decide) (by decide)⟩

/-! ## Precompile scheduler (src/lib/Cache.js)

`Cache.prototype.precompile` deduplicates by the module-scoped
`precompiling` array and chains jobs on the module-scoped promise
`precompileQueue` via `precompileQueue.then(runJob, logError)`.  The
`precompile` generator (lines 51–87) runs out of process and removes the
identity from `precompiling` after — and only after — a successful spawn. -/

/-- The module descriptor handed to `Cache.prototype.precompile`. -/
structure PMod where
  name : String
  version : String
  entry : String
deriving DecidableEq, Repr

/-- `mod.name + '/' + mod.version` — the in-flight identity of a job. -/
def PMod.jid (m : PMod) : String := m.name ++ "/" ++ m.version

/-- The `system.modules[name][version]` record; `main` is absent or a
string (the empty string is falsy, as in JavaScript). -/
structure SysData where
  main : Option String
deriving Repr

/-- `system.modules`. -/
abbrev SysModules := List (String × List (String × SysData))

/-- Generic string-keyed object lookup. -/
def alookup {α : Type} : List (String × α) → String → Option α
  | [], _ => none
  | (k', v) :: rest, k => if k' = k then some v else alookup rest k

/-- `s.endsWith(t)`, over the underlying character lists (so that it
computes by reduction). -/
def strEndsWith (s t : String) : Bool :=
  s.data.reverse.take t.data.length == t.data.reverse

/-- `s.startsWith(t)`, over the underlying character lists. -/
def strStartsWith (s t : String) : Bool :=
  s.data.take t.data.length == t.data

/-- `s.replace(regex-caret-dot-slash, '')`. -/
def stripDotSlash (s : String) : String :=
  if strStartsWith s "./" then String.mk (s.data.drop 2) else s

/-- `s.replace(regex-dot-js-dollar, '')`. -/
def stripJsExt (s : String) : String :=
  if strEndsWith s ".js" then String.mk (s.data.take (s.data.length - 3)) else s

/-- Scheduler state: the `precompiling` array and the modules whose job
bodies have been chained onto `precompileQueue`. -/
structure SchedState where
  precompiling : List String
  queue : List PMod
deriving DecidableEq, Repr

inductive SchedErr : Type where
  | typeError
deriving DecidableEq, Repr

/-- `Cache.prototype.precompile(mod, opts)` (src/lib/Cache.js lines
161–188): no-op when the identity is in flight; otherwise mark it
in-flight, look up the module's package record, bail out (leaving the
identity marked) when the resolved entry is not the package main, else
chain the job onto the queue.  A missing `system.modules[name]` or
`[version]` record makes the subsequent property access throw. -/
def cachePrecompile (sys : SysModules) (mod : PMod) (st : SchedState) :
    Except SchedErr SchedState :=
  if st.precompiling.contains mod.jid then .ok st
  else
    let st1 : SchedState := { st with precompiling := st.precompiling ++ [mod.jid] }
    match alookup sys mod.name with
    | none => .error .typeError
    | some versions =>
      match alookup versions mod.version with
      | none => .error .typeError
      | some data =>
        let mainStr :=
          match data.main with
          | some m => if m.isEmpty then "index" else stripJsExt (stripDotSlash m)
          | none => "index"
        if mainStr ++ ".js" ≠ mod.entry then .ok st1
        else .ok { st1 with queue := st1.queue ++ [mod] }

/-- Outcome of one queued `co(precompile(mod, opts))` run, as determined
by the environment (filesystem and spawned worker). -/
inductive JobOutcome : Type where
  | moduleMissing
  | symlink
  | spawnSuccess
  | spawnFailure
deriving DecidableEq, Repr

/-- Effect of one job run on the `precompiling` array (src/lib/Cache.js
lines 51–87): the removal loop after `yield spawn(...)` runs only when the
spawn succeeded; the early `return`s (module missing, symlink) and the
rejection path skip it. -/
def runJob (out : JobOutcome) (mod : PMod) (pre : List String) : List String :=
  if out = .spawnSuccess then pre.filter (fun i => i ≠ mod.jid) else pre

/-- Does the job's promise fulfil (`true`) or reject (`false`)?  Only a
non-zero worker exit rejects; the early returns resolve normally. -/
def jobFulfils (out : JobOutcome) : Bool := out ≠ .spawnFailure

/-- Drain the promise chain built by
`precompileQueue = precompileQueue.then(run, logError)`.  When the
previous promise fulfilled, the job body runs (the job is *executed*);
when it rejected, only the logging handler attached in the same `.then`
runs — the job body is skipped and the resulting promise fulfils.
Returns the executed modules, the final `precompiling` array and the
final promise status. -/
def runQueue (env : PMod → JobOutcome) :
    List PMod → Bool → List String → List PMod × List String × Bool
  | [], status, pre => ([], pre, status)
  | j :: rest, status, pre =>
    if status then
      let out := env j
      let res := runQueue env rest (jobFulfils out) (runJob out j pre)
      (j :: res.1, res.2)
    else
      runQueue env rest true pre

/-! ## C7: precompile deduplicates in-flight identities -/

/-- C7: a `Cache.precompile` call for an identity already in the in-flight
set is a no-op (state, including the queue, unchanged); and after any
successful call the identity is in flight, so a second call before
completion is always that no-op — at most one job is enqueued per
uncompleted identity. -/
theorem cachePrecompile_inflight_noop :
    (∀ (sys : SysModules) (mod : PMod) (st : SchedState),
      st.precompiling.contains mod.jid = true →
      cachePrecompile sys mod st = .ok st) ∧
    (∀ (sys : SysModules) (mod : PMod) (st st' : SchedState),
      cachePrecompile sys mod st = .ok st' →
      cachePrecompile sys mod st' = .ok st') := by
  have noop : ∀ (sys : SysModules) (mod : PMod) (st : SchedState),
      st.precompiling.contains mod.jid = true →
      cachePrecompile sys mod st = .ok st := by
    intro sys mod st h
    unfold cachePrecompile
    rw [if_pos h]
  refine ⟨noop, ?_⟩
  intro sys mod st st' h
  have hmem : st'.precompiling.contains mod.jid = true := by
    by_cases hin : st.precompiling.contains mod.jid = true
    · rw [noop sys mod st hin] at h
      injection h with h2
      subst h2
      exact hin
    · unfold cachePrecompile at h
      rw [if_neg hin] at h
      cases hv : alookup sys mod.name with
      | none =>
        simp only [hv] at h
        exact Except.noConfusion h
      | some versions =>
        simp only [hv] at h
        cases hd : alookup versions mod.version with
        | none =>
          simp only [hd] at h
          exact Except.noConfusion h
        | some data =>
          simp only [hd] at h
          by_cases hm : (match data.main with
              | some m => if m.isEmpty then "index" else stripJsExt (stripDotSlash m)
              | none => "index") ++ ".js" ≠ mod.entry
          · rw [if_pos hm] at h
            injection h with h2
            subst h2
            simp
          · rw [if_neg hm] at h
            injection h with h2
            subst h2
            simp
  exact noop sys mod st' hmem

/-- C7 witness: the no-op at a concrete in-flight state, reached by a
concrete first call that enqueued the job. -/
theorem cachePrecompile_inflight_noop_witness :
    cachePrecompile [("yen", [("1.2.4", ⟨some "index.js"⟩)])]
      ⟨"yen", "1.2.4", "index.js"⟩
      ⟨["yen/1.2.4"], [⟨"yen", "1.2.4", "index.js"⟩]⟩
      = .ok ⟨["yen/1.2.4"], [⟨"yen", "1.2.4", "index.js"⟩]⟩ :=
  cachePrecompile_inflight_noop.1 _ _ _ (by decide)

/-! ## C8: when the in-flight identity is removed -/

/-- Fixture: a module whose out-of-process compilation fails. -/
def failMod : PMod := ⟨"failing", "1.0.0", "index.js"⟩

/-- Fixture: a module whose out-of-process compilation succeeds. -/
def goodMod : PMod := ⟨"good", "2.0.0", "index.js"⟩

/-- Fixture: a third module, enqueued after the other two. -/
def thirdMod : PMod := ⟨"third", "3.0.0", "index.js"⟩

/-- C8 counterexample: a job that completes by failing leaves its
identity in the in-flight set — the removal loop sits after
`yield spawn(...)` with no try/finally, so the rejection skips it.  The
claim that completion (success or failure) removes the identity is false
on the failure path. -/
theorem precompile_failure_keeps_inflight_counterexample :
    runQueue (fun _ => .spawnFailure) [failMod] true [failMod.jid]
      = ([failMod], [failMod.jid], false) := by
  simp [runQueue, runJob, jobFulfils]

/-- C8 amended: the identity is removed from the in-flight set exactly
when the out-of-process compilation succeeds; when the job fails, the
identity remains in flight (so a later precompile call for it stays a
no-op rather than enqueuing a new job). -/
theorem precompile_inflight_removed_only_on_success :
    (∀ (env : PMod → JobOutcome) (j : PMod) (pre : List String),
      env j = .spawnSuccess →
      runQueue env [j] true pre = ([j], pre.filter (fun i => i ≠ j.jid), true)) ∧
    (∀ (env : PMod → JobOutcome) (j : PMod) (pre : List String),
      env j = .spawnFailure →
      runQueue env [j] true pre = ([j], pre, false)) := by
  constructor <;>
    (intro env j pre h
     simp [runQueue, runJob, jobFulfils, h])

/-- C8 witness: the success case removes the concrete identity, the
failure case keeps it. -/
theorem precompile_inflight_removed_only_on_success_witness :
    runQueue (fun _ => .spawnSuccess) [goodMod] true [goodMod.jid]
      = ([goodMod], ([goodMod.jid].filter (fun i => i ≠ goodMod.jid)), true) ∧
    runQueue (fun _ => .spawnFailure) [goodMod] true [goodMod.jid]
      = ([goodMod], [goodMod.jid], false) :=
  ⟨precompile_inflight_removed_only_on_success.1 _ goodMod [goodMod.jid] rfl,
   precompile_inflight_removed_only_on_success.2 _ goodMod [goodMod.jid] rfl⟩

/-! ## C9: a failing job silently cancels the next enqueued job -/

/-- C9: with jobs `failMod` (whose spawn fails), then `goodMod`, then
`thirdMod` on the queue, `goodMod`'s compilation never executes: its job
body and the logging handler were attached in the same
`.then(run, logError)`, so the rejected queue promise triggers only the
logger and skips the body, after which the chain recovers and `thirdMod`
runs.  This refutes the claim that a failure never prevents any other
job from running — the job enqueued immediately after the failing one is
lost. -/
theorem precompile_queue_skips_job_after_failure :
    runQueue (fun m => if m = failMod then .spawnFailure else .spawnSuccess)
      [failMod, goodMod, thirdMod] true []
      = ([failMod, thirdMod], [], true) ∧
    goodMod ∉ ([failMod, thirdMod] : List PMod) := by
  constructor
  · simp [runQueue, runJob, jobFulfils, failMod, goodMod, thirdMod]
  · decide

/-! ## BundleEngine (src/lib/compileAll.js, lines 121–207)

`_bundle` with its closure-captured generators `append`, `satisfy` and
`appendModule`.  The shared mutable closure state (`ids`, `route`, the
toplevel, `requiredMap`) becomes a `BState` threaded through the
recursion; the mutual recursion is made total with an explicit fuel
parameter (every recursive call decreases it), exhaustion being a
distinguished error that a sufficiently large budget never reaches. -/

/-- Modelled from the spec (§6 external interfaces): the collaborators
`findComponent` (SourceTextProvider lookup of a logical file name on the
search paths), `readFile`, and `matchRequire.findAll` (RequireScanner) are
required from modules that are not under src/, so they are opaque
parameters of the bundling semantics. -/
structure BEnv where
  findComponent : String → List String → Option String
  readFile : String → Option String
  findAll : String → List String

/-- Modelled from the spec (§3 ModuleIdentifier, §6: bundle identifier
format `<packageName>/<version>/<entry>`, names possibly scoped by a
leading `@scope/` segment): `parseId`, required from `./parseId` which is
not under src/. -/
structure Mod where
  name : String
  version : String
  entry : String
deriving DecidableEq, Repr

def parseId (id : String) : Mod :=
  match (splitSeg id.data).map (fun cs => String.mk cs) with
  | n :: rest =>
    if strStartsWith n "@" then
      match rest with
      | n2 :: v :: rest2 =>
        ⟨n ++ "/" ++ n2, v, String.mk (joinSegsBack (rest2.map (fun s => s.data)))⟩
      | _ => ⟨n, "", ""⟩
    else
      match rest with
      | v :: rest2 => ⟨n, v, String.mk (joinSegsBack (rest2.map (fun s => s.data)))⟩
      | [] => ⟨n, "", ""⟩
  | [] => ⟨"", "", ""⟩

/-- Modelled from the spec (§4.3): `define(id, dependencies, factory)`
wraps the source as a named, dependency-annotated module definition.  The
toplevel AST is the list of such definitions in parse order —
`UglifyJS.parse(code, { toplevel })` appends the newly parsed statements
after the statements already in `toplevel`. -/
structure Definition where
  id : String
  dependencies : List String
  factory : String
deriving DecidableEq, Repr

/-- The shared mutable state of one `_bundle` call tree. -/
structure BState where
  ids : List String
  route : List String
  toplevel : List Definition
  requiredMap : ReqMap

inductive BErr : Type where
  | sourceNotFound (id : String)
  | readFailed (id : String)
  | cannotFindModule (name : String)
  | typeError
  | fuelOut
deriving DecidableEq, Repr

/-- One request to the mutually recursive generators of `_bundle`: which
of `append` / `satisfy` / `appendModule` / `_bundle` to run, with its
per-invocation arguments (the search paths, the optional DependenciesMap
and the requiredMap flag vary across the recursive `_bundle` calls). -/
inductive BReq : Type where
  | append (paths : List String) (dmap : Option DependenciesMap) (hasReq : Bool)
      (id : String) (depsOpt : Option (List String)) (facOpt : Option String)
  | satisfy (paths : List String) (dmap : Option DependenciesMap) (hasReq : Bool)
      (mod : Mod) (id : String) (deps : List String)
  | appendModule (paths : List String) (d : DependenciesMap) (hasReq : Bool)
      (name : String)
  | bundle (paths : List String) (dmap : Option DependenciesMap) (hasReq : Bool)
      (main : String) (depsOpt : Option (List String)) (facOpt : Option String)

/-! ### The four mutually recursive generators of src/lib/compileAll.js
as one fuel-indexed step function (every recursive call decreases the
fuel):

* `.append id deps? fac?` (lines 128–161): no-op when the id is already
  recorded; otherwise unshift it, locate the source (`<name>/<entry>.js`
  when the first search path is a node_modules directory, else
  `<entry>.js`), fail when neither a file nor a truthy literal factory
  exists, scan dependencies unless given, discard heredoc specifiers,
  merge the wrapped definition at the end of the toplevel, then satisfy
  the dependencies.
* `.satisfy mod id deps` (lines 163–179): per specifier — relative ones
  are appended as sibling files; same-package siblings found on the
  search paths are appended as `<name>/<version>/<dep>`; otherwise, with
  a DependenciesMap configured, push the specifier onto the route,
  resolve and recursively bundle it, and pop the route.
* `.appendModule name` (lines 181–202): resolve the route via
  `findModule` (threading the requiredMap), fail when unresolved, and
  recursively `_bundle` the package's main entry with the package base
  directory as the new search path.
* `.bundle main deps? fac?` (lines 121–207): append the entry module. -/

/-- The `findComponent` call of `append` (lines 133–135): look under
`<name>/<entry>.js` when the first search path is a node_modules
directory, else under `<entry>.js`. -/
def locateComponent (env : BEnv) (mod : Mod) (p0 : String)
    (paths : List String) : Option String :=
  if strEndsWith p0 "node_modules" then
    env.findComponent (mod.name ++ "/" ++ mod.entry ++ ".js") paths
  else
    env.findComponent (mod.entry ++ ".js") paths

/-- JavaScript truthiness of the `factory` argument (the empty string is
falsy). -/
def facGivenOf (fac? : Option String) : Bool :=
  match fac? with
  | some f => !f.isEmpty
  | none => false

/-- `factory = factory || (yield readFile(fpath))` (line 141). -/
def effectiveFactory (env : BEnv) (facGiven : Bool) (fac? fpath : Option String) :
    Option String :=
  if facGiven then fac? else fpath.bind env.readFile

/-- `dependencies = dependencies || matchRequire.findAll(factory)` followed
by the heredoc splice loop (lines 142–148). -/
def scanDeps (env : BEnv) (deps? : Option (List String)) (factory : String) :
    List String :=
  (match deps? with
   | some ds => ds
   | none => env.findAll factory).filter (fun d => !(strEndsWith d "heredoc"))

/-- The body of `append` (lines 128–161), with `recur` the next recursion
level. -/
def appendBody (env : BEnv) (recur : BReq → BState → Except BErr BState)
    (paths : List String) (dmap : Option DependenciesMap) (hasReq : Bool)
    (id : String) (deps? : Option (List String)) (fac? : Option String)
    (st : BState) : Except BErr BState :=
  if st.ids.contains id then .ok st
  else
    match paths with
    | [] => .error .typeError
    | p0 :: _ =>
      if locateComponent env (parseId id) p0 paths = none ∧ facGivenOf fac? = false then
        .error (.sourceNotFound id)
      else
        match effectiveFactory env (facGivenOf fac?) fac?
            (locateComponent env (parseId id) p0 paths) with
        | none => .error (.readFailed id)
        | some factory =>
          recur (.satisfy paths dmap hasReq (parseId id) id (scanDeps env deps? factory))
            { st with ids := id :: st.ids,
                      toplevel := st.toplevel ++
                        [⟨id, scanDeps env deps? factory, factory⟩] }

/-- One iteration of the `satisfy` loop (lines 164–178): handle the
specifier `dep` for module `mod`/`id`. -/
def satisfyStep (env : BEnv) (recur : BReq → BState → Except BErr BState)
    (paths : List String) (dmap : Option DependenciesMap) (hasReq : Bool)
    (mod : Mod) (id : String) (dep : String) (st : BState) :
    Except BErr BState :=
  if strStartsWith dep "." then
    recur (.append paths dmap hasReq (pathJoin (dirnameS id) dep) none none) st
  else if (env.findComponent (dep ++ ".js") paths).isSome then
    recur (.append paths dmap hasReq
      (mod.name ++ "/" ++ mod.version ++ "/" ++ dep) none none) st
  else
    match dmap with
    | some d =>
      match recur (.appendModule paths d hasReq dep)
          { st with route := st.route ++ [dep] } with
      | .error e => .error e
      | .ok st2 => .ok { st2 with route := st2.route.dropLast }
    | none => .ok st

/-- The body of `satisfy` (lines 163–179). -/
def satisfyBody (env : BEnv) (recur : BReq → BState → Except BErr BState)
    (paths : List String) (dmap : Option DependenciesMap) (hasReq : Bool)
    (mod : Mod) (id : String) (deps : List String) (st : BState) :
    Except BErr BState :=
  match deps with
  | [] => .ok st
  | dep :: rest =>
    match satisfyStep env recur paths dmap hasReq mod id dep st with
    | .error e => .error e
    | .ok st' => recur (.satisfy paths dmap hasReq mod id rest) st'

/-- The body of `appendModule` (lines 181–202). -/
def appendModuleBody (env : BEnv) (recur : BReq → BState → Except BErr BState)
    (d : DependenciesMap) (hasReq : Bool) (name : String) (st : BState) :
    Except BErr BState :=
  match findModule st.route d hasReq st.requiredMap with
  | .error _ => .error .typeError
  | .ok (none, _) => .error (.cannotFindModule name)
  | .ok (some data, req') =>
    let id := pathJoin (pathJoin name data.version) (stripJsExt data.main)
    let pkgBase := (splitSeg name.data).foldl (fun r _ => dirnameS r) data.dir
    recur (.bundle [pkgBase] (some d) hasReq id none none)
      { st with requiredMap := req' }

def bundleBody (env : BEnv) (recur : BReq → BState → Except BErr BState)
    (req : BReq) (st : BState) : Except BErr BState :=
  match req with
  | .append paths dmap hasReq id deps? fac? =>
    appendBody env recur paths dmap hasReq id deps? fac? st
  | .satisfy paths dmap hasReq mod id deps =>
    satisfyBody env recur paths dmap hasReq mod id deps st
  | .appendModule _paths d hasReq name =>
    appendModuleBody env recur d hasReq name st
  | .bundle paths dmap hasReq main deps? fac? =>
    recur (.append paths dmap hasReq main deps? fac?) st

def bundleStep (env : BEnv) : Nat → BReq → BState → Except BErr BState
  | 0, _, _ => .error .fuelOut
  | fuel + 1, req, st => bundleBody env (bundleStep env fuel) req st

theorem bundleStep_zero (env : BEnv) (req : BReq) (st : BState) :
    bundleStep env 0 req st = .error .fuelOut := rfl

theorem bundleStep_append (env : BEnv) (fuel : Nat) (paths : List String)
    (dmap : Option DependenciesMap) (hasReq : Bool) (id : String)
    (deps? : Option (List String)) (fac? : Option String) (st : BState) :
    bundleStep env (fuel + 1) (.append paths dmap hasReq id deps? fac?) st
      = appendBody env (bundleStep env fuel) paths dmap hasReq id deps? fac? st := rfl

theorem bundleStep_satisfy (env : BEnv) (fuel : Nat) (paths : List String)
    (dmap : Option DependenciesMap) (hasReq : Bool) (mod : Mod) (id : String)
    (deps : List String) (st : BState) :
    bundleStep env (fuel + 1) (.satisfy paths dmap hasReq mod id deps) st
      = satisfyBody env (bundleStep env fuel) paths dmap hasReq mod id deps st := rfl

theorem bundleStep_appendModule (env : BEnv) (fuel : Nat) (paths : List String)
    (d : DependenciesMap) (hasReq : Bool) (name : String) (st : BState) :
    bundleStep env (fuel + 1) (.appendModule paths d hasReq name) st
      = appendModuleBody env (bundleStep env fuel) d hasReq name st := rfl

theorem bundleStep_bundle (env : BEnv) (fuel : Nat) (paths : List String)
    (dmap : Option DependenciesMap) (hasReq : Bool) (main : String)
    (deps? : Option (List String)) (fac? : Option String) (st : BState) :
    bundleStep env (fuel + 1) (.bundle paths dmap hasReq main deps? fac?) st
      = bundleStep env fuel (.append paths dmap hasReq main deps? fac?) st := rfl

/-- `append(id, dependencies, factory)`. -/
def appendF (env : BEnv) (fuel : Nat) (paths : List String)
    (dmap : Option DependenciesMap) (hasReq : Bool) (id : String)
    (deps? : Option (List String)) (fac? : Option String) (st : BState) :
    Except BErr BState :=
  bundleStep env fuel (.append paths dmap hasReq id deps? fac?) st

/-- `satisfy(mod)`. -/
def satisfyF (env : BEnv) (fuel : Nat) (paths : List String)
    (dmap : Option DependenciesMap) (hasReq : Bool) (mod : Mod) (id : String)
    (deps : List String) (st : BState) : Except BErr BState :=
  bundleStep env fuel (.satisfy paths dmap hasReq mod id deps) st

/-- `appendModule(name)`. -/
def appendModuleF (env : BEnv) (fuel : Nat) (paths : List String)
    (d : DependenciesMap) (hasReq : Bool) (name : String) (st : BState) :
    Except BErr BState :=
  bundleStep env fuel (.appendModule paths d hasReq name) st

/-- `_bundle(main, opts)`. -/
def bundleF (env : BEnv) (fuel : Nat) (paths : List String)
    (dmap : Option DependenciesMap) (hasReq : Bool) (main : String)
    (deps? : Option (List String)) (fac? : Option String) (st : BState) :
    Except BErr BState :=
  bundleStep env fuel (.bundle paths dmap hasReq main deps? fac?) st

/-! ## Structural facts about the bundling recursion -/

/-- Invariant behind duplicate-freedom: the toplevel's definition ids are
distinct and each is recorded in `ids`. -/
def GoodState (st : BState) : Prop :=
  (st.toplevel.map (fun d => d.id)).Nodup ∧
  ∀ d ∈ st.toplevel, d.id ∈ st.ids

/-- How a bundling step transforms the state: the toplevel only grows at
its end, recorded ids stay recorded, and `GoodState` is preserved. -/
def Grows (st st' : BState) : Prop :=
  (∃ t, st'.toplevel = st.toplevel ++ t) ∧
  (∀ x ∈ st.ids, x ∈ st'.ids) ∧
  (GoodState st → GoodState st')

theorem growsRefl (st : BState) : Grows st st :=
  ⟨⟨[], by simp⟩, fun _ h => h, id⟩

theorem growsTrans {s1 s2 s3 : BState} (h12 : Grows s1 s2) (h23 : Grows s2 s3) :
    Grows s1 s3 := by
  obtain ⟨⟨t1, ht1⟩, hi1, hg1⟩ := h12
  obtain ⟨⟨t2, ht2⟩, hi2, hg2⟩ := h23
  exact ⟨⟨t1 ++ t2, by rw [ht2, ht1, List.append_assoc]⟩,
    fun x hx => hi2 x (hi1 x hx), fun g => hg2 (hg1 g)⟩

/-- Changing only `route` or `requiredMap` is a (trivial) growth. -/
theorem growsOfSameCore {st st' : BState} (ht : st'.toplevel = st.toplevel)
    (hi : st'.ids = st.ids) : Grows st st' := by
  refine ⟨⟨[], by simp [ht]⟩, fun x hx => by rw [hi]; exact hx, ?_⟩
  rintro ⟨g1, g2⟩
  exact ⟨by rw [ht]; exact g1, fun d hd => by rw [hi]; exact g2 d (by rw [← ht]; exact hd)⟩

/-- The fresh-append step: unshift a new id and append its definition. -/
theorem growsFresh {st : BState} {id : String} (hnotin : id ∉ st.ids)
    (defn : Definition) (hdef : defn.id = id) :
    Grows st { st with ids := id :: st.ids, toplevel := st.toplevel ++ [defn] } := by
  refine ⟨⟨[defn], rfl⟩, fun x hx => List.mem_cons_of_mem _ hx, ?_⟩
  rintro ⟨hnd, hmem⟩
  constructor
  · rw [List.map_append, List.nodup_append]
    refine ⟨hnd, by simp, ?_⟩
    intro x hx1 hx2
    simp only [List.map_cons, List.map_nil, List.mem_singleton] at hx2
    obtain ⟨d, hd, rfl⟩ := List.mem_map.mp hx1
    exact hnotin ((hx2.trans hdef) ▸ hmem d hd)
  · intro d hd
    rcases List.mem_append.mp hd with hcase | hcase
    · exact List.mem_cons_of_mem _ (hmem d hcase)
    · rw [List.mem_singleton] at hcase
      rw [hcase, hdef]
      exact List.mem_cons_self _ _

/-- Master structural lemma: a successful run of any bundling request only
grows the state, in the `Grows` sense.  By induction on the fuel. -/
theorem bundle_growth :
    ∀ (fuel : Nat) (env : BEnv) (req : BReq) (st st' : BState),
    bundleStep env fuel req st = .ok st' → Grows st st' := by
  intro fuel
  induction fuel with
  | zero =>
    intro env req st st' h
    rw [bundleStep_zero] at h
    exact Except.noConfusion h
  | succ fuel ih =>
    intro env req st st' h
    cases req with
    | append paths dmap hasReq id deps? fac? =>
      rw [bundleStep_append] at h
      delta appendBody at h
      by_cases hin : st.ids.contains id = true
      · rw [if_pos hin] at h
        injection h with h2
        subst h2
        exact growsRefl _
      · rw [if_neg hin] at h
        cases paths with
        | nil => exact Except.noConfusion h
        | cons p0 prest =>
          dsimp only [] at h
          by_cases hsrc : (locateComponent env (parseId id) p0 (p0 :: prest) = none ∧
              facGivenOf fac? = false)
          · rw [if_pos hsrc] at h
            exact Except.noConfusion h
          · rw [if_neg hsrc] at h
            cases heff : effectiveFactory env (facGivenOf fac?) fac?
                (locateComponent env (parseId id) p0 (p0 :: prest)) with
            | none =>
              rw [heff] at h
              exact Except.noConfusion h
            | some factory =>
              rw [heff] at h
              have hfresh : id ∉ st.ids := by simpa using hin
              exact growsTrans (growsFresh hfresh _ rfl) (ih _ _ _ _ h)
    | satisfy paths dmap hasReq mod id deps =>
      cases deps with
      | nil =>
        rw [bundleStep_satisfy] at h
        delta satisfyBody at h
        injection h with h2
        subst h2
        exact growsRefl _
      | cons dep rest =>
        rw [bundleStep_satisfy] at h
        delta satisfyBody at h
        dsimp only [] at h
        cases hbr : satisfyStep env (bundleStep env fuel) paths dmap hasReq mod id dep st with
        | error e =>
          rw [hbr] at h
          exact Except.noConfusion h
        | ok stMid =>
          rw [hbr] at h
          refine growsTrans ?_ (ih _ _ _ _ h)
          delta satisfyStep at hbr
          by_cases hrel : strStartsWith dep "." = true
          · rw [if_pos hrel] at hbr
            exact ih _ _ _ _ hbr
          · rw [if_neg hrel] at hbr
            by_cases hsib : (env.findComponent (dep ++ ".js") paths).isSome = true
            · rw [if_pos hsib] at hbr
              exact ih _ _ _ _ hbr
            · rw [if_neg hsib] at hbr
              cases dmap with
              | none =>
                injection hbr with h2
                subst h2
                exact growsRefl _
              | some d =>
                dsimp only [] at hbr
                cases hmod : bundleStep env fuel (.appendModule paths d hasReq dep)
                    { st with route := st.route ++ [dep] } with
                | error e =>
                  rw [hmod] at hbr
                  exact Except.noConfusion hbr
                | ok st3 =>
                  rw [hmod] at hbr
                  injection hbr with h2
                  subst h2
                  have g1 : Grows st { st with route := st.route ++ [dep] } :=
                    growsOfSameCore rfl rfl
                  have g2 := ih _ _ _ _ hmod
                  have g3 : Grows st3 { st3 with route := st3.route.dropLast } :=
                    growsOfSameCore rfl rfl
                  exact growsTrans g1 (growsTrans g2 g3)
    | appendModule paths d hasReq name =>
      rw [bundleStep_appendModule] at h
      delta appendModuleBody at h
      cases hfm : findModule st.route d hasReq st.requiredMap with
      | error e =>
        rw [hfm] at h
        exact Except.noConfusion h
      | ok pr =>
        rw [hfm] at h
        obtain ⟨r2, req2⟩ := pr
        cases r2 with
        | none => exact Except.noConfusion h
        | some data =>
          dsimp only [] at h
          have g1 : Grows st { st with requiredMap := req2 } := growsOfSameCore rfl rfl
          exact growsTrans g1 (ih _ _ _ _ h)
    | bundle paths dmap hasReq main deps? fac? =>
      rw [bundleStep_bundle] at h
      exact ih _ _ _ _ h

/-! ## The concrete three-module chain a → ./b → ./c -/

/-- Source text of the chain head. -/
def srcA : String := "module.exports = require('./b')"

/-- Source text of the middle module. -/
def srcB : String := "module.exports = require('./c')"

/-- Source text of the leaf module. -/
def srcC : String := "module.exports = 1"

/-- Environment serving the three-module chain from `/proj/components`. -/
def chainEnv : BEnv where
  findComponent := fun f _ =>
    if f = "a.js" ∨ f = "b.js" ∨ f = "c.js" then some ("/proj/components/" ++ f)
    else none
  readFile := fun p =>
    if p = "/proj/components/a.js" then some srcA
    else if p = "/proj/components/b.js" then some srcB
    else if p = "/proj/components/c.js" then some srcC
    else none
  findAll := fun s =>
    if s = srcA then ["./b"]
    else if s = srcB then ["./c"]
    else []

/-- The empty initial bundle state. -/
def chainInit : BState := ⟨[], [], [], []⟩

/-- Bundling the chain head with plenty of fuel. -/
def chainRun : Except BErr BState :=
  bundleF chainEnv 10 ["/proj/components"] none false "app/1.0.0/a" none none chainInit

/-! ## C1: emission order of the final aggregate -/

/-- C1 counterexample: for the acyclic chain a → ./b → ./c, the final
aggregate (the toplevel returned by `_bundle`) holds the wrapped
definitions in the order A, B, C — each `append` parses the dependent's
definition into the toplevel *before* recursing into `satisfy` — so C's
definition appears AFTER B's (and B's after A's), refuting the claimed
dependency-before-dependent emission order. -/
theorem bundle_chain_order_counterexample :
    chainRun.map (fun st => st.toplevel.map (fun d => d.id))
      = .ok ["app/1.0.0/a", "app/1.0.0/b", "app/1.0.0/c"] ∧
    (["app/1.0.0/a", "app/1.0.0/b", "app/1.0.0/c"].indexOf "app/1.0.0/c"
      > ["app/1.0.0/a", "app/1.0.0/b", "app/1.0.0/c"].indexOf "app/1.0.0/b") := by
  constructor
  · rfl
  · decide

/-- C1 amended: the emission order is dependent-first.  Whenever `append`
processes a fresh id successfully, the id's wrapped definition is merged
at the current end of the aggregate and everything contributed by its
(transitive) dependencies comes after it; consequently, for the concrete
chain A→B→C the final aggregate holds A then B then C, while the
identifier list `ids` records the reverse order C, B, A. -/
theorem bundle_dependent_definition_precedes_dependencies :
    (∀ (env : BEnv) (fuel : Nat) (paths : List String)
       (dmap : Option DependenciesMap) (hasReq : Bool) (id : String)
       (deps? : Option (List String)) (fac? : Option String) (st st' : BState),
      appendF env fuel paths dmap hasReq id deps? fac? st = .ok st' →
      id ∉ st.ids →
      ∃ deps fac tail,
        st'.toplevel = st.toplevel ++ (⟨id, deps, fac⟩ : Definition) :: tail) ∧
    (chainRun.map (fun st => st.toplevel.map (fun d => d.id))
        = .ok ["app/1.0.0/a", "app/1.0.0/b", "app/1.0.0/c"] ∧
     chainRun.map (fun st => st.ids)
        = .ok ["app/1.0.0/c", "app/1.0.0/b", "app/1.0.0/a"]) := by
  constructor
  · intro env fuel paths dmap hasReq id deps? fac? st st' h hnotin
    cases fuel with
    | zero =>
      rw [appendF, bundleStep_zero] at h
      exact Except.noConfusion h
    | succ fuel =>
      rw [appendF, bundleStep_append] at h
      delta appendBody at h
      have hc : ¬(st.ids.contains id = true) := by simpa using hnotin
      rw [if_neg hc] at h
      cases paths with
      | nil => exact Except.noConfusion h
      | cons p0 prest =>
        dsimp only [] at h
        by_cases hsrc : (locateComponent env (parseId id) p0 (p0 :: prest) = none ∧
            facGivenOf fac? = false)
        · rw [if_pos hsrc] at h
          exact Except.noConfusion h
        · rw [if_neg hsrc] at h
          cases heff : effectiveFactory env (facGivenOf fac?) fac?
              (locateComponent env (parseId id) p0 (p0 :: prest)) with
          | none =>
            rw [heff] at h
            exact Except.noConfusion h
          | some factory =>
            rw [heff] at h
            obtain ⟨⟨t, ht⟩, _, _⟩ := bundle_growth fuel env _ _ _ h
            refine ⟨scanDeps env deps? factory, factory, t, ?_⟩
            rw [ht]
            simp
  · constructor
    · rfl
    · rfl

/-- C1 witness: the general part instantiated at the concrete chain — the
head's definition opens the aggregate, everything else comes after. -/
theorem bundle_dependent_definition_precedes_dependencies_witness :
    ∃ deps fac tail,
      ([⟨"app/1.0.0/a", ["./b"], srcA⟩, ⟨"app/1.0.0/b", ["./c"], srcB⟩,
        ⟨"app/1.0.0/c", [], srcC⟩] : List Definition)
        = ([] : List Definition) ++ (⟨"app/1.0.0/a", deps, fac⟩ : Definition) :: tail :=
  bundle_dependent_definition_precedes_dependencies.1 chainEnv 9 ["/proj/components"]
    none false "app/1.0.0/a" none none chainInit
    ⟨["app/1.0.0/c", "app/1.0.0/b", "app/1.0.0/a"], [],
     [⟨"app/1.0.0/a", ["./b"], srcA⟩, ⟨"app/1.0.0/b", ["./c"], srcB⟩,
      ⟨"app/1.0.0/c", [], srcC⟩], []⟩
    rfl (by simp [chainInit])

/-! ## C4: append is idempotent per id -/

/-- C4: within one `_bundle` call tree, `append` called with an id already
in the identifier set is a no-op (the state is returned unchanged); and
from any well-formed state a successful `append` keeps the aggregate's
definition ids pairwise distinct — so the final aggregate holds exactly
one wrapped definition per id, no matter how many times an id is
appended. -/
theorem append_idempotent_per_id :
    (∀ (env : BEnv) (fuel : Nat) (paths : List String)
       (dmap : Option DependenciesMap) (hasReq : Bool) (id : String)
       (deps? : Option (List String)) (fac? : Option String) (st : BState),
      st.ids.contains id = true →
      appendF env (fuel + 1) paths dmap hasReq id deps? fac? st = .ok st) ∧
    (∀ (env : BEnv) (fuel : Nat) (paths : List String)
       (dmap : Option DependenciesMap) (hasReq : Bool) (id : String)
       (deps? : Option (List String)) (fac? : Option String) (st st' : BState),
      GoodState st →
      appendF env fuel paths dmap hasReq id deps? fac? st = .ok st' →
      (st'.toplevel.map (fun d => d.id)).Nodup) := by
  constructor
  · intro env fuel paths dmap hasReq id deps? fac? st h
    rw [appendF, bundleStep_append]
    delta appendBody
    rw [if_pos h]
  · intro env fuel paths dmap hasReq id deps? fac? st st' hg h
    exact ((bundle_growth fuel env _ _ _ h).2.2 hg).1

/-- C4 witness: appending the chain head a second time at the final chain
state is a no-op, and the chain's aggregate ids are distinct. -/
theorem append_idempotent_per_id_witness :
    appendF chainEnv 10 ["/proj/components"] none false "app/1.0.0/a" none none
      ⟨["app/1.0.0/c", "app/1.0.0/b", "app/1.0.0/a"], [],
       [⟨"app/1.0.0/a", ["./b"], srcA⟩, ⟨"app/1.0.0/b", ["./c"], srcB⟩,
        ⟨"app/1.0.0/c", [], srcC⟩], []⟩
      = .ok ⟨["app/1.0.0/c", "app/1.0.0/b", "app/1.0.0/a"], [],
        [⟨"app/1.0.0/a", ["./b"], srcA⟩, ⟨"app/1.0.0/b", ["./c"], srcB⟩,
         ⟨"app/1.0.0/c", [], srcC⟩], []⟩ ∧
    (([⟨"app/1.0.0/a", ["./b"], srcA⟩, ⟨"app/1.0.0/b", ["./c"], srcB⟩,
       ⟨"app/1.0.0/c", [], srcC⟩] : List Definition).map (fun d => d.id)).Nodup :=
  ⟨append_idempotent_per_id.1 chainEnv 9 ["/proj/components"] none false
      "app/1.0.0/a" none none _ (by decide),
   append_idempotent_per_id.2 chainEnv 9 ["/proj/components"] none false
      "app/1.0.0/a" none none chainInit _ ⟨by simp [chainInit], by simp [chainInit]⟩ rfl⟩

end Oceanify
